import Mathlib

/-!
Verification of the alanrag knowledge-retrieval engine.

This file gives a shallow embedding in Lean 4 of the algorithmic core of the
repository — the BM25 keyword scorer (`src/search/bm25.rs`), the diversity
reranker (`src/search/semantic.rs`), the semantic text chunker
(`src/chunker/semantic.rs`), the query enhancer
(`src/search/query_enhancer.rs`), the relationship-graph builder
(`src/graph/builder.rs`) and the shortest-path analyzer
(`src/graph/relationships.rs`) — and proves or refutes the specified
properties of these components.

Modelling conventions, applied uniformly:
* Rust `f32` values are modelled as exact rationals `ℚ`; the two
  transcendental operations (`ln` in BM25, `sqrt` in cosine similarity) are
  modelled by `Real.log` and by an abstract function parameter `sqrtFn`
  respectively.  The special value `f32::INFINITY` used by Dijkstra is
  modelled by `⊤ : WithTop ℚ`.
* Rust `HashMap` / `HashSet` are modelled by total functions with an
  `Option` codomain, by `Finset`, or by deduplicated lists; where the code
  iterates a `HashMap` in unspecified order the model fixes first-insertion
  order (every property proved here is insensitive to that choice, and the
  comments at the definitions note it).
* `Uuid::new_v4()` (random chunk ids) is modelled by an explicit id-supply
  parameter; SHA-256 file hashes and creation timestamps carry no
  algorithmic content and are omitted from the chunk record.
* Unicode character classes (`char::is_alphanumeric`, `to_lowercase`) are
  modelled on their ASCII fragment, which covers every literal the code and
  the properties mention; Rust `char::is_whitespace` (the Unicode
  White_Space class) is modelled in full.
* Loops whose termination is not structural (the BFS worklist, Dijkstra's
  relaxation loop, path reconstruction) are modelled with an explicit fuel
  parameter large enough for the loop to run to completion; the theorems
  about them either hold for every fuel value or prove the fuel sufficient.
-/

namespace AlanRag

/-! ## Character classes and string utilities shared by several components -/

/-- Rust `char::is_whitespace`: the Unicode White_Space code points. -/
def rustIsWhitespace (c : Char) : Bool :=
  c.toNat ∈ [0x09, 0x0A, 0x0B, 0x0C, 0x0D, 0x20, 0x85, 0xA0, 0x1680,
    0x2000, 0x2001, 0x2002, 0x2003, 0x2004, 0x2005, 0x2006, 0x2007,
    0x2008, 0x2009, 0x200A, 0x2028, 0x2029, 0x202F, 0x205F, 0x3000]

/-- Rust `char::is_alphanumeric` (ASCII fragment of the Unicode classes). -/
def rustIsAlphanumeric (c : Char) : Bool :=
  c.isAlphanum

/-- Rust `char::to_lowercase` (ASCII fragment). -/
def rustToLower (c : Char) : Char :=
  c.toLower

/-- Lowercase an entire string, as Rust `str::to_lowercase`. -/
def lowerStr (s : String) : String :=
  String.mk (s.data.map rustToLower)

/-- Word-character class of the regex `\w`: alphanumeric or underscore. -/
def isWordChar (c : Char) : Bool :=
  rustIsAlphanumeric c || c = '_'

/-- Accumulator loop splitting a character list into maximal runs of
characters failing `sep`, discarding the separators (the behaviour of Rust
`str::split_whitespace` with `sep` = whitespace). -/
def splitRunsGo (sep : Char → Bool) : List Char → List Char → List (List Char) →
    List (List Char)
  | [], cur, acc => if cur = [] then acc else acc ++ [cur]
  | c :: rest, cur, acc =>
    if sep c then
      if cur = [] then splitRunsGo sep rest [] acc
      else splitRunsGo sep rest [] (acc ++ [cur])
    else splitRunsGo sep rest (cur ++ [c]) acc

/-- Split a string at Unicode whitespace, Rust `str::split_whitespace`. -/
def splitWhitespace (s : String) : List String :=
  (splitRunsGo rustIsWhitespace s.data [] []).map String.mk

/-- Scan for an occurrence of `needle` as a contiguous sublist of `hay`. -/
def listContainsSub (needle : List Char) : List Char → Bool
  | [] => needle = []
  | c :: rest => needle.isPrefixOf (c :: rest) || listContainsSub needle rest

/-- Membership of a needle string inside a haystack, Rust `str::contains`
(byte-substring search; on valid UTF-8 this coincides with character-list
infix search because UTF-8 is self-synchronizing). -/
def containsStr (haystack needle : String) : Bool :=
  listContainsSub needle.data haystack.data

/-- UTF-8 byte length of a character list, Rust `str::len`. -/
def byteLen (l : List Char) : Nat :=
  (l.map Char.utf8Size).sum

/-! ## BM25 keyword search (`src/search/bm25.rs`) -/

namespace BM25Search

/-- State of `BM25Search`: per-term document frequency (a `HashMap` with
`unwrap_or(&0)` lookups, modelled as a total function), total document count
and running average token length.  The parameters `k1 = 1.2` and `b = 0.75`
are inlined as rational literals where the formula uses them. -/
structure State where
  term_doc_freq : String → Nat
  total_docs : Nat
  avg_doc_length : ℚ

/-- `BM25Search::new()`. -/
def new : State :=
  { term_doc_freq := fun _ => 0, total_docs := 0, avg_doc_length := 0 }

/-- `BM25Search::tokenize`: lowercase, split at whitespace, keep only
alphanumeric/underscore characters of each word, drop words of length ≤ 2.
(The retained characters are ASCII under the modelled character classes, so
Rust's byte length equals the character count here.) -/
def tokenize (text : String) : List String :=
  ((splitWhitespace (lowerStr text)).map
      (fun w => String.mk (w.data.filter (fun c => rustIsAlphanumeric c || c = '_')))).filter
    (fun w => w.data ≠ [] && 2 < w.data.length)

/-- `BM25Search::index_document`: bump the document frequency of each
distinct token, increment the document count, and fold the token count of
the new document into the running average length. -/
def index_document (st : State) (content : String) : State :=
  let terms := tokenize content
  let uniqueTerms := terms.dedup
  let total' := st.total_docs + 1
  let docLength : ℚ := (tokenize content).length
  { term_doc_freq := fun t =>
      if t ∈ uniqueTerms then st.term_doc_freq t + 1 else st.term_doc_freq t,
    total_docs := total',
    avg_doc_length := (st.avg_doc_length * (total' - 1 : ℕ) + docLength) / (total' : ℚ) }

/-- The contribution of one query term to the BM25 score (the body of the
scoring loop of `calculate_bm25_score`): zero when the term frequency is
zero, otherwise `ln((N - df + 0.5)/(df + 0.5)) * tf*(k1+1)/(tf +
k1*(1-b+b*len/avg_len))` with `k1 = 1.2 = 6/5` and `b = 0.75 = 3/4`.
The `f32` quotient `len/avg_len` with `avg_len = 0` is `+∞`, which drives
the `tf` component to `0`; the `if st.avg_doc_length = 0` guard reproduces
that. -/
noncomputable def scoreTerm (st : State) (doc_terms : List String) (qt : String) : ℝ :=
  let doc_length : ℚ := doc_terms.length
  let tf : ℚ := doc_terms.count qt
  if 0 < tf then
    let df : ℚ := st.term_doc_freq qt
    let idf : ℝ := Real.log (((st.total_docs : ℚ) - df + 1/2) / (df + 1/2))
    let tf_component : ℚ :=
      if st.avg_doc_length = 0 then 0
      else (tf * (6/5 + 1)) /
        (tf + 6/5 * (1 - 3/4 + 3/4 * doc_length / st.avg_doc_length))
    idf * (tf_component : ℝ)
  else 0

/-- `BM25Search::calculate_bm25_score`: the sum of the per-term
contributions over the query terms. -/
noncomputable def calculate_bm25_score (st : State) (query_terms : List String)
    (document : String) : ℝ :=
  (query_terms.map (scoreTerm st (tokenize document))).sum

end BM25Search

/-! ## Search results and the diversity reranker (`src/search/semantic.rs`) -/

/-- `SearchResult` from `src/storage`: chunk id, score, content and a
string-keyed metadata map (modelled as an association list). -/
structure SearchResult where
  chunk_id : String
  score : ℚ
  content : String
  metadata : List (String × String)
deriving DecidableEq, Inhabited

namespace SemanticSearch

/-- `SemanticSearch::text_similarity`: Jaccard similarity of the two
whitespace-tokenized word sets. -/
def text_similarity (text1 text2 : String) : ℚ :=
  let words1 := (splitWhitespace text1).dedup
  let words2 := (splitWhitespace text2).dedup
  let inter := (words1.filter (fun w => w ∈ words2)).length
  let union := ((words1 ++ words2).dedup).length
  if union = 0 then 0 else (inter : ℚ) / (union : ℚ)

/-- Average Jaccard similarity of a candidate to the already-selected
results (`diversity_penalty / reranked.len()`, `0` when nothing is selected
yet). -/
def avg_diversity_penalty (candidate : SearchResult) (reranked : List SearchResult) : ℚ :=
  let penalty := (reranked.map (fun s => text_similarity candidate.content s.content)).sum
  if reranked = [] then 0 else penalty / (reranked.length : ℚ)

/-- The balanced score `candidate.score * (1 - diversity_factor * penalty)`
used to pick the next result. -/
def final_score (candidate : SearchResult) (reranked : List SearchResult)
    (diversity_factor : ℚ) : ℚ :=
  candidate.score * (1 - diversity_factor * avg_diversity_penalty candidate reranked)

/-- Index scan of the selection loop: starting from `best_idx = 0`,
`best_score = 0.0`, replace the champion whenever a candidate's balanced
score strictly exceeds it. -/
def select_go (reranked : List SearchResult) (d : ℚ) :
    List SearchResult → Nat → Nat → ℚ → Nat
  | [], _, bestIdx, _ => bestIdx
  | c :: rest, i, bestIdx, bestScore =>
    let fs := final_score c reranked d
    if bestScore < fs then select_go reranked d rest (i + 1) i fs
    else select_go reranked d rest (i + 1) bestIdx bestScore

/-- Index of the candidate chosen from `remaining` by the loop body of
`rerank_with_diversity`. -/
def select_best (remaining reranked : List SearchResult) (d : ℚ) : Nat :=
  select_go reranked d remaining 0 0 0

theorem select_go_bound (reranked : List SearchResult) (d : ℚ) :
    ∀ (l : List SearchResult) (i bestIdx : Nat) (bestScore : ℚ),
      bestIdx < i ∨ bestIdx = 0 →
      select_go reranked d l i bestIdx bestScore < i + l.length ∨
        (select_go reranked d l i bestIdx bestScore = 0) := by
  intro l
  induction l with
  | nil =>
    intro i bestIdx bestScore h
    simp only [select_go, List.length_nil, Nat.add_zero]
    rcases h with h | h
    · exact Or.inl h
    · exact Or.inr h
  | cons c rest ih =>
    intro i bestIdx bestScore h
    simp only [select_go, List.length_cons]
    by_cases hcmp : bestScore < final_score c reranked d
    · rw [if_pos hcmp]
      rcases ih (i + 1) i (final_score c reranked d) (Or.inl (Nat.lt_succ_self i)) with h1 | h1
      · exact Or.inl (by omega)
      · exact Or.inr h1
    · rw [if_neg hcmp]
      have hpre : bestIdx < i + 1 ∨ bestIdx = 0 := by
        rcases h with h | h
        · exact Or.inl (by omega)
        · exact Or.inr h
      rcases ih (i + 1) bestIdx bestScore hpre with h1 | h1
      · exact Or.inl (by omega)
      · exact Or.inr h1

theorem select_best_lt (remaining reranked : List SearchResult) (d : ℚ)
    (h : remaining ≠ []) : select_best remaining reranked d < remaining.length := by
  have hb := select_go_bound reranked d remaining 0 0 0 (Or.inr rfl)
  rcases hb with h1 | h1
  · simpa using h1
  · rw [select_best, h1]
    cases remaining with
    | nil => exact absurd rfl h
    | cons a l => simp

/-- The greedy selection loop of `rerank_with_diversity`: while results
remain and fewer than `results_len` have been placed, move the best-scoring
remaining candidate (balance of relevance and diversity) to the output.
Each iteration removes exactly one element of `remaining`, so running the
loop with fuel `remaining.length` (as `rerank_with_diversity` does)
reproduces the `while` loop exactly. -/
def rerank_loop (d : ℚ) (results_len : Nat) :
    Nat → List SearchResult → List SearchResult → List SearchResult
  | 0, reranked, _ => reranked
  | fuel + 1, reranked, remaining =>
    if remaining = [] then reranked
    else if results_len ≤ reranked.length then reranked
    else
      let idx := select_best remaining reranked d
      let picked := remaining.getD idx default
      rerank_loop d results_len fuel (reranked ++ [picked]) (remaining.eraseIdx idx)

/-- `SemanticSearch::rerank_with_diversity`: lists of length ≤ 1 are
returned unchanged; otherwise the head is taken first and the loop places
the rest. -/
def rerank_with_diversity (results : List SearchResult) (diversity_factor : ℚ) :
    List SearchResult :=
  if results.length ≤ 1 then results
  else
    match results with
    | [] => []
    | best :: remaining =>
      rerank_loop diversity_factor results.length remaining.length [best] remaining

end SemanticSearch

/-! ## Chunks and the semantic text chunker (`src/chunker/semantic.rs`) -/

/-- `ChunkType` from `src/chunker/semantic.rs`. -/
inductive ChunkType where
  | Text
  | Code
  | Markdown
  | Pdf
deriving DecidableEq

/-- `ChunkMetadata`, restricted to the fields with algorithmic content: the
SHA-256 `file_hash`, the creation `timestamp`, `language`, `line_start` /
`line_end` (duplicates of `boundaries` for text chunks), `dependencies` and
`parent_chunk_id` are omitted.  The Rust field `section` is rendered
`sectionName` because `section` is a Lean keyword. -/
structure ChunkMetadata where
  source_file : String
  chunk_type : ChunkType
  chapter : Option String
  sectionName : Option String
  tags : List String
  chunk_size : Nat
deriving DecidableEq

/-- `Chunk`: id, content, embedding vector and boundaries. -/
structure Chunk where
  id : String
  content : String
  embedding : List ℚ
  metadata : ChunkMetadata
  boundaries : Nat × Nat
deriving DecidableEq

namespace SemanticChunker

/-- The chunker's three size parameters. -/
structure Config where
  max_chunk_size : Nat
  min_chunk_size : Nat
  overlap_tokens : Nat

/-- `SemanticChunker::extract_tags`: the lowercased marker keywords present
in the text. -/
def extract_tags (text : String) : List String :=
  (["TODO", "FIXME", "NOTE", "WARNING", "IMPORTANT",
    "API", "REST", "GraphQL", "Database", "Config"].filter
      (fun k => containsStr text k)).map lowerStr

/-- Character-level loop of `SemanticChunker::split_sentences`: push each
character onto the current sentence; after `.`/`!`/`?` peek at the next
character — a space is consumed into the sentence and the sentence is
flushed, a newline or tab flushes the sentence but stays in the input, end
of input flushes.  A whitespace-only remainder is discarded.  Every step
consumes at least one input character, so the fuel `length + 1` supplied by
`split_sentences` runs the scan to completion. -/
def sentencesGo : Nat → List Char → List Char → List (List Char)
  | 0, _, _ => []
  | _ + 1, [], cur => if cur.all rustIsWhitespace then [] else [cur]
  | fuel + 1, c :: rest, cur =>
    let cur' := cur ++ [c]
    if c = '.' ∨ c = '!' ∨ c = '?' then
      match rest with
      | [] => [cur']
      | next :: rest2 =>
        if next = ' ' then (cur' ++ [next]) :: sentencesGo fuel rest2 []
        else if next = '\n' ∨ next = '\t' then cur' :: sentencesGo fuel (next :: rest2) []
        else sentencesGo fuel (next :: rest2) cur'
    else sentencesGo fuel rest cur'

/-- `SemanticChunker::split_sentences`, with the final filter dropping
whitespace-only sentences. -/
def split_sentences (text : String) : List String :=
  ((sentencesGo (text.data.length + 1) text.data []).filter
    (fun s => ¬ s.all rustIsWhitespace)).map String.mk

/-- Build the `Chunk` record emitted by `chunk_text` (id drawn from the
supply; `file_hash`/`timestamp` omitted, see `ChunkMetadata`). -/
def mkTextChunk (ident : String) (source_file : String) (cur : List Char)
    (start_pos cur_pos : Nat) : Chunk :=
  { id := ident
    content := String.mk cur
    embedding := []
    metadata :=
      { source_file := source_file
        chunk_type := ChunkType.Text
        chapter := none
        sectionName := none
        tags := extract_tags (String.mk cur)
        chunk_size := byteLen cur }
    boundaries := (start_pos, cur_pos) }

/-- Sentence-accumulation loop of `SemanticChunker::chunk_text`.  When
adding the next sentence would push the byte length of the buffer past
`max_chunk_size`, the buffer is emitted (if at least `min_chunk_size`
bytes) and the next buffer starts from the trailing `overlap_tokens`
characters; positions count characters.  A final non-empty buffer of at
least `min_chunk_size` bytes is emitted. -/
def chunkTextGo (cfg : Config) (ids : Nat → String) (source_file : String) :
    List (List Char) → List Char → Nat → Nat → List Chunk → List Chunk
  | [], cur, start_pos, cur_pos, acc =>
    if cur ≠ [] ∧ cfg.min_chunk_size ≤ byteLen cur then
      acc ++ [mkTextChunk (ids acc.length) source_file cur start_pos cur_pos]
    else acc
  | s :: rest, cur, start_pos, cur_pos, acc =>
    if cfg.max_chunk_size < byteLen cur + byteLen s ∧ cur ≠ [] then
      let acc' :=
        if cfg.min_chunk_size ≤ byteLen cur then
          acc ++ [mkTextChunk (ids acc.length) source_file cur start_pos cur_pos]
        else acc
      let overlap_start := cur.length - cfg.overlap_tokens
      let cur' := cur.drop overlap_start
      let start' := cur_pos - cur'.length
      chunkTextGo cfg ids source_file rest (cur' ++ s) start' (cur_pos + s.length) acc'
    else
      chunkTextGo cfg ids source_file rest (cur ++ s) start_pos (cur_pos + s.length) acc

/-- `SemanticChunker::chunk_text` (the `Ok` value; the function never
errs).  `ids` supplies the `Uuid::new_v4()` draws. -/
def chunk_text (cfg : Config) (ids : Nat → String) (text source_file : String) :
    List Chunk :=
  chunkTextGo cfg ids source_file ((split_sentences text).map String.data) [] 0 0 []

end SemanticChunker

/-! ## Query enhancer (`src/search/query_enhancer.rs`) -/

/-- `QueryIntent`. -/
inductive QueryIntent where
  | CodeExample
  | Concept
  | Configuration
  | Mixed
deriving DecidableEq

/-- `EnhancedQuery`. -/
structure EnhancedQuery where
  original : String
  enhanced : String
  intent : QueryIntent
  keywords : List String
  uvm_terms : List String
deriving DecidableEq

namespace QueryEnhancer

/-- The `uvm_synonyms` table of `QueryEnhancer::new`, in insertion order
(the `HashMap` iterates in unspecified order; every property proved below
is insensitive to the order). -/
def uvm_synonyms : List (String × List String) :=
  [("monitor", ["uvm_monitor", "monitoring", "observer", "watcher"]),
   ("driver", ["uvm_driver", "stimulus", "generator"]),
   ("agent", ["uvm_agent", "verification_component", "vc"]),
   ("scoreboard", ["uvm_scoreboard", "checker", "comparator", "validator"]),
   ("config_db", ["uvm_config_db", "configuration_database", "config", "configuration"]),
   ("resource_db", ["uvm_resource_db", "resource_database"]),
   ("phase", ["uvm_phase", "build_phase", "connect_phase", "run_phase",
              "extract_phase", "check_phase", "report_phase"]),
   ("tlm", ["transaction_level_modeling", "analysis_port", "analysis_export",
            "analysis_imp", "tlm_analysis_port"]),
   ("factory", ["uvm_factory", "component_utils", "object_utils", "type_override"]),
   ("sequence", ["uvm_sequence", "uvm_sequence_item", "sequencer", "uvm_sequencer"])]

/-- The `abbreviations` table, in insertion order (same remark as for
`uvm_synonyms`; on the inputs evaluated below no expansion introduces a new
whole-word occurrence of another abbreviation, so the order is immaterial). -/
def abbreviations : List (String × String) :=
  [("cfg", "configuration"), ("db", "database"), ("tlm", "transaction_level_modeling"),
   ("vc", "verification_component"), ("tb", "testbench"), ("env", "environment")]

/-- The `code_indicators` list. -/
def code_indicators : List String :=
  ["implementation", "code", "example", "sample", "snippet",
   "function", "method", "class", "task"]

/-- The `concept_indicators` list. -/
def concept_indicators : List String :=
  ["what", "define", "explain", "description", "overview",
   "purpose", "meaning", "concept"]

/-- Replace every maximal word-character run equal to `ab` by `ex` — the
effect of `Regex::replace_all` with pattern `\b{ab}\b` when `ab` consists
solely of word characters, as every abbreviation does.  `run` accumulates
the current word-character run. -/
def replaceRunsGo (ab ex : List Char) : List Char → List Char → List Char
  | [], run => if run = ab then ex else run
  | c :: rest, run =>
    if isWordChar c then replaceRunsGo ab ex rest (run ++ [c])
    else (if run = ab then ex else run) ++ c :: replaceRunsGo ab ex rest []

/-- Whole-word replacement of one abbreviation. -/
def replace_abbrev (ab ex : String) (s : String) : String :=
  String.mk (replaceRunsGo ab.data ex.data s.data [])

/-- `QueryEnhancer::expand_abbreviations`. -/
def expand_abbreviations (query : String) : String :=
  abbreviations.foldl (fun r p => replace_abbrev p.1 p.2 r) query

/-- `QueryEnhancer::detect_intent`: substring hits of the three indicator
families; exactly one family matching fixes the intent, otherwise `Mixed`. -/
def detect_intent (query : String) : QueryIntent :=
  let has_code := code_indicators.any (fun ind => containsStr query ind)
  let has_concept := concept_indicators.any (fun ind => containsStr query ind)
  let has_config := containsStr query "config" || containsStr query "setup" ||
    containsStr query "configuration"
  match has_code, has_concept, has_config with
  | true, false, false => QueryIntent.CodeExample
  | false, true, false => QueryIntent.Concept
  | false, false, true => QueryIntent.Configuration
  | _, _, _ => QueryIntent.Mixed

/-- Atom of the fixed UVM term patterns: a literal, or the greedy `\w+`. -/
inductive RAtom where
  | lit (cs : List Char)
  | wordPlus
deriving DecidableEq

/-- One pattern: an atom sequence, optionally ending in `\b` (every such
pattern ends in a word character, so the boundary holds exactly when the
following character is absent or a non-word character). -/
structure RPattern where
  atoms : List RAtom
  endBoundary : Bool

/-- First hit of `f` on `i, i-1, …, 1` — the backtracking order of a greedy
`\w+` that must consume at least one character. -/
def natDownFirst (f : Nat → Option Nat) : Nat → Option Nat
  | 0 => none
  | i + 1 =>
    match f (i + 1) with
    | some r => some r
    | none => natDownFirst f i

/-- Length matched by an atom sequence at the head of `l`, with the
leftmost-first greedy-with-backtracking semantics of the `regex` crate on
these patterns: a `\w+` first takes its maximal run and backs off one
character at a time until the remaining atoms match. -/
def matchAtoms : List RAtom → List Char → Option Nat
  | [], _ => some 0
  | RAtom.lit cs :: rest, l =>
    if cs.isPrefixOf l then (matchAtoms rest (l.drop cs.length)).map (· + cs.length)
    else none
  | RAtom.wordPlus :: rest, l =>
    natDownFirst (fun i => (matchAtoms rest (l.drop i)).map (· + i))
      (l.takeWhile isWordChar).length

/-- Match a whole pattern at the head of `l`, checking the trailing word
boundary when present. -/
def matchPattern (p : RPattern) (l : List Char) : Option Nat :=
  match matchAtoms p.atoms l with
  | none => none
  | some n =>
    if p.endBoundary then
      match l.drop n with
      | [] => some n
      | c :: _ => if isWordChar c then none else some n
    else some n

/-- Scanner of `Regex::find_iter`: each step either records a match and
skips past it or advances one character, so it consumes at least one
character per step (all patterns used here match at least one character,
making the `max n 1` step equal `n`); fuel `l.length` therefore runs the
scan to completion. -/
def findIterGo (p : RPattern) : Nat → List Char → List (List Char)
  | 0, _ => []
  | _ + 1, [] => []
  | fuel + 1, c :: rest =>
    match matchPattern p (c :: rest) with
    | some n => (c :: rest).take n :: findIterGo p fuel ((c :: rest).drop (max n 1))
    | none => findIterGo p fuel rest

/-- `Regex::find_iter`: non-overlapping leftmost matches. -/
def findIter (p : RPattern) (l : List Char) : List (List Char) :=
  findIterGo p l.length l

/-- The six UVM term patterns of `extract_uvm_terms`, in source order:
`uvm_\w+`, `` `uvm_\w+ ``, `\w+_phase`, `\w+_imp\b`, `\w+_export\b`,
`\w+_port\b`. -/
def uvm_patterns : List RPattern :=
  [⟨[RAtom.lit "uvm_".data, RAtom.wordPlus], false⟩,
   ⟨[RAtom.lit (Char.ofNat 96 :: "uvm_".data), RAtom.wordPlus], false⟩,
   ⟨[RAtom.wordPlus, RAtom.lit "_phase".data], false⟩,
   ⟨[RAtom.wordPlus, RAtom.lit "_imp".data], true⟩,
   ⟨[RAtom.wordPlus, RAtom.lit "_export".data], true⟩,
   ⟨[RAtom.wordPlus, RAtom.lit "_port".data], true⟩]

/-- `QueryEnhancer::extract_uvm_terms`. -/
def extract_uvm_terms (query : String) : List String :=
  uvm_patterns.flatMap (fun p => (findIter p query.data).map String.mk)

/-- `QueryEnhancer::add_synonyms`: for every synonym-table key contained in
the query (substring test against the query itself), append a space and the
first synonym.  Table order as in `uvm_synonyms`. -/
def add_synonyms (query : String) : String :=
  uvm_synonyms.foldl
    (fun enhanced t =>
      if containsStr query t.1 then
        match t.2 with
        | [] => enhanced
        | s :: _ => enhanced ++ " " ++ s
      else enhanced)
    query

/-- `QueryEnhancer::build_enhanced_query`. -/
def build_enhanced_query (query : String) (intent : QueryIntent)
    (uvm_terms : List String) : String :=
  let e1 :=
    match intent with
    | QueryIntent.CodeExample =>
      if ¬ containsStr query "implementation" ∧ ¬ containsStr query "example" then
        query ++ " implementation example code"
      else query
    | QueryIntent.Concept =>
      if ¬ containsStr query "definition" ∧ ¬ containsStr query "explanation" then
        query ++ " definition explanation"
      else query
    | QueryIntent.Configuration =>
      if ¬ containsStr query "setup" ∧ ¬ containsStr query "configuration" then
        query ++ " setup configuration"
      else query
    | QueryIntent.Mixed => query
  if uvm_terms ≠ [] ∧ ¬ containsStr e1 "uvm" then e1 ++ " uvm verification" else e1

/-- `QueryEnhancer::extract_keywords` (no lowercasing here, unlike BM25's
tokenizer). -/
def extract_keywords (query : String) : List String :=
  ((splitWhitespace query).map
      (fun w => String.mk (w.data.filter (fun c => rustIsAlphanumeric c || c = '_')))).filter
    (fun w => w.data ≠ [] && 2 < w.data.length)

/-- `QueryEnhancer::enhance`. -/
def enhance (query : String) : EnhancedQuery :=
  let normalized := lowerStr query
  let expanded := expand_abbreviations normalized
  let intent := detect_intent expanded
  let uvm_terms := extract_uvm_terms expanded
  let with_synonyms := add_synonyms expanded
  let enhanced := build_enhanced_query with_synonyms intent uvm_terms
  let keywords := extract_keywords enhanced
  { original := query, enhanced := enhanced, intent := intent,
    keywords := keywords, uvm_terms := uvm_terms }

end QueryEnhancer

/-! ## Stable sort by a natural-number key

Rust `slice::sort_by_key` is a stable sort; any stable sort has the same
output, so the model uses a stable insertion sort, which reduces inside the
kernel. -/

/-- Insert `x` after every element whose key is ≤ the key of `x`. -/
def insertByKey {α : Type} (f : α → Nat) (x : α) : List α → List α
  | [] => [x]
  | y :: rest => if f y ≤ f x then y :: insertByKey f x rest else x :: y :: rest

/-- Stable sort by the key `f`. -/
def sortByKey {α : Type} (f : α → Nat) (l : List α) : List α :=
  l.foldl (fun acc x => insertByKey f x acc) []

/-! ## Relationship graph (`src/graph/builder.rs`) -/

/-- `NodeType`. -/
inductive NodeType where
  | Chunk
  | Word
  | Chapter
  | Document
deriving DecidableEq

/-- `GraphNode` (metadata `HashMap` as an association list in insertion
order). -/
structure GraphNode where
  id : String
  node_type : NodeType
  content : String
  metadata : List (String × String)
deriving DecidableEq

/-- `EdgeType`. -/
inductive EdgeType where
  | Similarity
  | Contains
  | PartOf
  | Sequential
  | Reference
deriving DecidableEq

/-- `GraphEdge`; the Rust fields `from`/`to` are rendered `fromId`/`toId`
because `from` is a Lean keyword. -/
structure GraphEdge where
  fromId : String
  toId : String
  edge_type : EdgeType
  weight : ℚ
deriving DecidableEq

/-- `GraphBuilder`: the node `HashMap` as a total function into `Option`
(`None` = key absent), the edge `Vec` as a list. -/
structure GraphBuilder where
  nodes : String → Option GraphNode
  edges : List GraphEdge
  similarity_threshold : ℚ

namespace GraphBuilder

/-- `GraphBuilder::new`. -/
def new (similarity_threshold : ℚ) : GraphBuilder :=
  { nodes := fun _ => none, edges := [], similarity_threshold := similarity_threshold }

/-- `HashMap::insert` on the node map. -/
def insertNode (ns : String → Option GraphNode) (k : String) (v : GraphNode) :
    String → Option GraphNode :=
  fun x => if x = k then some v else ns x

/-- `format!("{:?}", chunk_type)`. -/
def chunkTypeName : ChunkType → String
  | ChunkType.Text => "Text"
  | ChunkType.Code => "Code"
  | ChunkType.Markdown => "Markdown"
  | ChunkType.Pdf => "Pdf"

/-- `GraphBuilder::add_chunk_node`. -/
def add_chunk_node (st : GraphBuilder) (c : Chunk) : GraphBuilder :=
  let md0 := [("source_file", c.metadata.source_file),
              ("chunk_type", chunkTypeName c.metadata.chunk_type)]
  let md1 := (match c.metadata.chapter with
    | some ch => md0 ++ [("chapter", ch)]
    | none => md0)
  let md2 := (match c.metadata.sectionName with
    | some s => md1 ++ [("section", s)]
    | none => md1)
  let node : GraphNode :=
    { id := c.id, node_type := NodeType.Chunk, content := c.content, metadata := md2 }
  { st with nodes := insertNode st.nodes c.id node }

/-- `GraphBuilder::jaccard_similarity`. -/
def jaccard_similarity (text1 text2 : String) : ℚ :=
  let words1 := (splitWhitespace text1).dedup
  let words2 := (splitWhitespace text2).dedup
  let inter := (words1.filter (fun w => w ∈ words2)).length
  let union := ((words1 ++ words2).dedup).length
  if union = 0 then 0 else (inter : ℚ) / (union : ℚ)

/-- `GraphBuilder::cosine_similarity`; `sqrtFn` abstracts `f32::sqrt`. -/
def cosine_similarity (sqrtFn : ℚ → ℚ) (a b : List ℚ) : ℚ :=
  if a.length ≠ b.length then 0
  else
    let dot_product := ((a.zip b).map (fun p => p.1 * p.2)).sum
    let norm_a := sqrtFn ((a.map (fun x => x * x)).sum)
    let norm_b := sqrtFn ((b.map (fun x => x * x)).sum)
    if norm_a = 0 ∨ norm_b = 0 then 0 else dot_product / (norm_a * norm_b)

/-- `GraphBuilder::calculate_similarity`: cosine on the embeddings when both
are non-empty, Jaccard on the contents otherwise. -/
def calculate_similarity (sqrtFn : ℚ → ℚ) (c1 c2 : Chunk) : ℚ :=
  if c1.embedding ≠ [] ∧ c2.embedding ≠ [] then
    cosine_similarity sqrtFn c1.embedding c2.embedding
  else
    jaccard_similarity c1.content c2.content

/-- The ordered `i < j` pairs visited by the nested loops of
`build_similarity_edges`. -/
def simPairs : List Chunk → List (Chunk × Chunk)
  | [] => []
  | c :: rest => rest.map (fun d => (c, d)) ++ simPairs rest

/-- `GraphBuilder::build_similarity_edges` (the `Ok` value; the function
never errs). -/
def build_similarity_edges (sqrtFn : ℚ → ℚ) (st : GraphBuilder) (chunks : List Chunk) :
    GraphBuilder :=
  let newEdges := (simPairs chunks).filterMap (fun p =>
    let similarity := calculate_similarity sqrtFn p.1 p.2
    if st.similarity_threshold < similarity then
      some { fromId := p.1.id, toId := p.2.id, edge_type := EdgeType.Similarity,
             weight := similarity }
    else none)
  { st with edges := st.edges ++ newEdges }

/-- Trim characters failing `rustIsAlphanumeric` from both ends, Rust
`str::trim_matches(|c| !c.is_alphanumeric())`. -/
def trimNonAlphanumeric (l : List Char) : List Char :=
  ((l.dropWhile (fun c => ¬ rustIsAlphanumeric c)).reverse.dropWhile
    (fun c => ¬ rustIsAlphanumeric c)).reverse

/-- `GraphBuilder::extract_keywords`: lowercase, trim non-alphanumerics,
keep words longer than 3 that are not stop words.  (The kept words are
ASCII under the modelled classes, so byte length equals character count.) -/
def extract_keywords (text : String) : List String :=
  let stop_words := ["the", "a", "an", "and", "or", "but", "in", "on", "at",
                     "to", "for", "of", "with", "by"]
  ((splitWhitespace text).map
      (fun w => String.mk (trimNonAlphanumeric (lowerStr w).data))).filter
    (fun w => 3 < w.data.length && ¬ stop_words.contains w)

/-- Per-word step of `extract_word_nodes`: create the word node when absent,
then always push a `Contains` edge (one per occurrence). -/
def addWordNode (st : GraphBuilder) (chunkId word : String) : GraphBuilder :=
  let st1 :=
    if (st.nodes word).isSome then st
    else
      let node : GraphNode :=
        { id := word, node_type := NodeType.Word, content := word, metadata := [] }
      { st with nodes := insertNode st.nodes word node }
  { st1 with edges := st1.edges ++
      [{ fromId := chunkId, toId := word, edge_type := EdgeType.Contains, weight := 1 }] }

/-- `GraphBuilder::extract_word_nodes` (the `word_frequencies` counter the
code accumulates is never read and is dropped here). -/
def extract_word_nodes (st : GraphBuilder) (chunks : List Chunk) : GraphBuilder :=
  chunks.foldl
    (fun s c => (extract_keywords c.content).foldl (fun s2 w => addWordNode s2 c.id w) s)
    st

/-- Group a chunk batch by source file, preserving within-group batch order;
groups appear in first-occurrence order (the code iterates a `HashMap` in
unspecified order — the properties proved below do not depend on it). -/
def insertGrouped (key : String) (c : Chunk) :
    List (String × List Chunk) → List (String × List Chunk)
  | [] => [(key, [c])]
  | (k, g) :: rest =>
    if k = key then (k, g ++ [c]) :: rest else (k, g) :: insertGrouped key c rest

/-- The `HashMap<String, Vec<_>>` grouping used by the hierarchical and the
sequential passes. -/
def groupBySource (chunks : List Chunk) : List (String × List Chunk) :=
  chunks.foldl (fun acc c => insertGrouped c.metadata.source_file c acc) []

/-- Per-chunk chapter step of `build_hierarchical_relationships`: when the
chunk has a chapter, create the `file#chapter` node if absent and push a
`PartOf` edge chunk → chapter. -/
def addChapterFor (st : GraphBuilder) (c : Chunk) : GraphBuilder :=
  match c.metadata.chapter with
  | none => st
  | some ch =>
    let chapter_id := c.metadata.source_file ++ "#" ++ ch
    let st1 :=
      if (st.nodes chapter_id).isSome then st
      else
        let node : GraphNode :=
          { id := chapter_id, node_type := NodeType.Chapter, content := ch, metadata := [] }
        { st with nodes := insertNode st.nodes chapter_id node }
    let newEdge : GraphEdge :=
      { fromId := c.id, toId := chapter_id, edge_type := EdgeType.PartOf, weight := 1 }
    { st1 with edges := st1.edges ++ [newEdge] }

/-- Per-document step of `build_hierarchical_relationships`: create the
document node if absent and push a `PartOf` edge for every chunk of the
group. -/
def addDocumentFor (st : GraphBuilder) (doc_id : String) (g : List Chunk) : GraphBuilder :=
  let st1 :=
    if (st.nodes doc_id).isSome then st
    else
      let node : GraphNode :=
        { id := doc_id, node_type := NodeType.Document, content := doc_id, metadata := [] }
      { st with nodes := insertNode st.nodes doc_id node }
  let newEdges := g.map (fun c =>
    { fromId := c.id, toId := doc_id, edge_type := EdgeType.PartOf, weight := (1 : ℚ) })
  { st1 with edges := st1.edges ++ newEdges }

/-- `GraphBuilder::build_hierarchical_relationships` (the `chapters` map the
code accumulates is never read and is dropped here). -/
def build_hierarchical_relationships (st : GraphBuilder) (chunks : List Chunk) :
    GraphBuilder :=
  let st1 := chunks.foldl addChapterFor st
  (groupBySource chunks).foldl (fun s p => addDocumentFor s p.1 p.2) st1

/-- The `Sequential` edges contributed by one source-file group: sort the
group stably by start boundary and link consecutive pairs. -/
def sequentialEdgesOf (g : List Chunk) : List GraphEdge :=
  let sorted := sortByKey (fun c => c.boundaries.1) g
  (sorted.zip sorted.tail).map
    (fun p => { fromId := p.1.id, toId := p.2.id, edge_type := EdgeType.Sequential,
                weight := (1 : ℚ) })

/-- `GraphBuilder::build_sequential_relationships`. -/
def build_sequential_relationships (st : GraphBuilder) (chunks : List Chunk) :
    GraphBuilder :=
  let newEdges := (groupBySource chunks).flatMap (fun p => sequentialEdgesOf p.2)
  { st with edges := st.edges ++ newEdges }

/-- `GraphBuilder::build_relationships` (the `Ok` value; no step can err):
chunk nodes, similarity edges, word nodes, hierarchy, sequence — in that
order. -/
def build_relationships (sqrtFn : ℚ → ℚ) (st : GraphBuilder) (chunks : List Chunk) :
    GraphBuilder :=
  let st1 := chunks.foldl add_chunk_node st
  let st2 := build_similarity_edges sqrtFn st1 chunks
  let st3 := extract_word_nodes st2 chunks
  let st4 := build_hierarchical_relationships st3 chunks
  build_sequential_relationships st4 chunks

/-! ### Breadth-first traversal `find_related_chunks` -/

/-- The undirected neighbor of `cur` along `e`, exactly as the loop body
tests `edge.from == current` then `edge.to == current`. -/
def neighborOf (e : GraphEdge) (cur : String) : Option String :=
  if e.fromId = cur then some e.toId
  else if e.toId = cur then some e.fromId
  else none

/-- Does the node map hold `i` as a Chunk node? -/
def isChunkNode (g : GraphBuilder) (i : String) : Bool :=
  match g.nodes i with
  | some n => n.node_type = NodeType.Chunk
  | none => false

/-- One full scan of the edge list from `cur` at depth `depth`: mark every
unvisited neighbor visited (the `HashSet` is modelled as a duplicate-free
list, insertion guarded by the membership test); a neighbor that is a Chunk
node is also appended to the result list and enqueued at `depth + 1`. -/
def processEdges (g : GraphBuilder) (cur : String) (depth : Nat) :
    List GraphEdge → List String → List String → List (String × Nat) →
    List String × List String × List (String × Nat)
  | [], visited, related, pushes => (visited, related, pushes)
  | e :: rest, visited, related, pushes =>
    match neighborOf e cur with
    | none => processEdges g cur depth rest visited related pushes
    | some n =>
      if n ∈ visited then processEdges g cur depth rest visited related pushes
      else
        let visited' := n :: visited
        if isChunkNode g n then
          processEdges g cur depth rest visited' (related ++ [n]) (pushes ++ [(n, depth + 1)])
        else
          processEdges g cur depth rest visited' related pushes

/-- The worklist loop of `find_related_chunks`, with fuel.  An entry popped
at depth ≥ `max_depth` is skipped; otherwise the whole edge list is scanned
from it.  The fuel chosen in `find_related_chunks` is large enough for the
loop to empty its queue (proved below). -/
def bfsLoop (g : GraphBuilder) (max_depth : Nat) :
    Nat → List String → List (String × Nat) → List String →
    List String × List String
  | 0, visited, _, related => (visited, related)
  | _ + 1, visited, [], related => (visited, related)
  | fuel + 1, visited, (cur, depth) :: rest, related =>
    if max_depth ≤ depth then bfsLoop g max_depth fuel visited rest related
    else
      let r := processEdges g cur depth g.edges visited related []
      bfsLoop g max_depth fuel r.1 (rest ++ r.2.2) r.2.1

/-- All edge endpoints — the ids the traversal can ever visit besides the
origin. -/
def endpointIds (g : GraphBuilder) : List String :=
  g.edges.flatMap (fun e => [e.fromId, e.toId])

/-- `GraphBuilder::find_related_chunks`. -/
def find_related_chunks (g : GraphBuilder) (chunk_id : String) (max_depth : Nat) :
    List String :=
  (bfsLoop g max_depth (2 * (endpointIds g).length + 2) [chunk_id] [(chunk_id, 0)] []).2

end GraphBuilder

/-! ### Reachability predicates used to state the traversal properties -/

/-- Undirected adjacency through the edge list, via `neighborOf`. -/
def adjacentIn (edges : List GraphEdge) (x y : String) : Prop :=
  ∃ e ∈ edges, GraphBuilder.neighborOf e x = some y

/-- Walks of a given hop count over all edges, through nodes of any kind —
the reachability notion of the specification sentence. -/
inductive AnyWalk (g : GraphBuilder) (o : String) : String → Nat → Prop where
  | refl : AnyWalk g o o 0
  | step {x y : String} {n : Nat} : AnyWalk g o x n → adjacentIn g.edges x y →
      AnyWalk g o y (n + 1)

/-- Walks of a given hop count whose every node after the origin is a Chunk
node of the graph — the reachability notion the traversal implements. -/
inductive ChunkWalk (g : GraphBuilder) (o : String) : String → Nat → Prop where
  | refl : ChunkWalk g o o 0
  | step {x y : String} {n : Nat} : ChunkWalk g o x n → adjacentIn g.edges x y →
      GraphBuilder.isChunkNode g y = true → ChunkWalk g o y (n + 1)

/-- Unbounded undirected reachability over an edge list. -/
inductive ReachesIn (edges : List GraphEdge) (o : String) : String → Prop where
  | refl : ReachesIn edges o o
  | step {x y : String} : ReachesIn edges o x → adjacentIn edges x y → ReachesIn edges o y

/-- No edge dangles: both endpoints of every edge are keys of the node map. -/
def dangleFree (g : GraphBuilder) : Prop :=
  ∀ e ∈ g.edges, (g.nodes e.fromId).isSome ∧ (g.nodes e.toId).isSome

/-- Invariant of the `find_related_chunks` worklist loop, with a ghost
discovery-depth map `δ`: the origin is visited at depth 0; queue entries are
visited Chunk nodes (or the origin) carrying their discovery depth; queue
depths are non-decreasing and span at most two consecutive levels; every
visited node was discovered no deeper than one past the current head; and
every visited Chunk-or-origin node is either still queued, fully expanded
with its neighbors discovered at most one level deeper, or as deep as the
depth bound.  The result list holds exactly the visited non-origin Chunk
nodes, without duplicates. -/
def BfsInv (g : GraphBuilder) (o : String) (d : Nat) (δ : String → Nat)
    (visited : List String) (queue : List (String × Nat)) (related : List String) : Prop :=
  o ∈ visited ∧ δ o = 0 ∧
  (∀ p ∈ queue, p.1 ∈ visited ∧ δ p.1 = p.2 ∧
    (GraphBuilder.isChunkNode g p.1 = true ∨ p.1 = o)) ∧
  queue.Pairwise (fun p q => p.2 ≤ q.2) ∧
  (∀ h ∈ queue.head?, ∀ p ∈ queue, p.2 ≤ h.2 + 1) ∧
  (∀ h ∈ queue.head?, ∀ x ∈ visited, δ x ≤ h.2 + 1) ∧
  (∀ x ∈ visited, (GraphBuilder.isChunkNode g x = true ∨ x = o) →
    ((∃ p ∈ queue, p.1 = x) ∨
     (∀ y, adjacentIn g.edges x y → y ∈ visited ∧ δ y ≤ δ x + 1) ∨
     d ≤ δ x)) ∧
  (∀ x ∈ visited, GraphBuilder.isChunkNode g x = true → x ≠ o → x ∈ related) ∧
  (∀ x ∈ related, x ∈ visited ∧ GraphBuilder.isChunkNode g x = true ∧ x ≠ o) ∧
  related.Nodup

/-! ## Relationship analyzer (`src/graph/relationships.rs`) -/

/-- `RelationshipAnalyzer`: a snapshot of the node map (association list in
insertion order) and the edge list. -/
structure RelationshipAnalyzer where
  nodes : List (String × GraphNode)
  edges : List GraphEdge

namespace RelationshipAnalyzer

/-- A priority-queue entry `Reverse((OrderedFloat(dist), node))`. -/
abbrev HeapEntry := WithTop ℚ × String

/-- The edge cost `1.0 / edge.weight`; `f32` yields `+∞` at weight `0`. -/
def edgeCost (e : GraphEdge) : WithTop ℚ :=
  if e.weight = 0 then ⊤ else ((1 / e.weight : ℚ) : WithTop ℚ)

/-- The heap order: `Reverse` over the lexicographic `(OrderedFloat, String)`
order, so the pop below takes the least entry.  (`OrderedFloat` compares by
`partial_cmp` with the `None` case mapped to `Equal`; rationals have no NaN,
so the order is the plain one.) -/
def entryLe (a b : HeapEntry) : Bool :=
  decide (a.1 < b.1) || (decide (a.1 = b.1) && ! decide (b.2 < a.2))

/-- Least entry of a non-empty collection. -/
def minEntry : HeapEntry → List HeapEntry → HeapEntry
  | m, [] => m
  | m, x :: rest => minEntry (if entryLe m x then m else x) rest

/-- Remove the first occurrence of an entry. -/
def removeFirst (x : HeapEntry) : List HeapEntry → List HeapEntry
  | [] => []
  | y :: rest => if y = x then rest else y :: removeFirst x rest

/-- `BinaryHeap::pop` on `Reverse` entries: the least entry under the total
lexicographic order, plus the rest of the heap.  (Entries comparing equal
are identical pairs, so which of them is removed is immaterial; the model
removes the first.) -/
def popMin : List HeapEntry → Option (HeapEntry × List HeapEntry)
  | [] => none
  | x :: rest =>
    let m := minEntry x rest
    some (m, removeFirst m (x :: rest))

/-- The edge scan relaxing every neighbor of `cn` (distance `cd`): when the
tentative distance beats the stored one (absent keys read as `∞`), the
distance and predecessor maps are updated and the entry is pushed. -/
def relaxEdges (cn : String) (cd : WithTop ℚ) :
    List GraphEdge → (String → WithTop ℚ) → (String → Option String) → List HeapEntry →
    (String → WithTop ℚ) × (String → Option String) × List HeapEntry
  | [], dist, prev, pushes => (dist, prev, pushes)
  | e :: rest, dist, prev, pushes =>
    match GraphBuilder.neighborOf e cn with
    | none => relaxEdges cn cd rest dist prev pushes
    | some nb =>
      let ndist := cd + edgeCost e
      if ndist < dist nb then
        relaxEdges cn cd rest
          (fun v => if v = nb then ndist else dist v)
          (fun v => if v = nb then some cn else prev v)
          (pushes ++ [(ndist, nb)])
      else relaxEdges cn cd rest dist prev pushes

/-- The main Dijkstra loop, with fuel: pop the least entry; stop at the
target; skip stale entries (popped distance above the stored one); otherwise
relax all edges.  Returns the predecessor map for path reconstruction.
`f32` has finitely many values, so the Rust loop always terminates; the
fuel in `find_shortest_path` is generous, and the properties proved below
hold for every fuel. -/
def dijkstraLoop (A : RelationshipAnalyzer) (dst : String) :
    Nat → (String → WithTop ℚ) → (String → Option String) → List HeapEntry →
    String → Option String
  | 0, _, prev, _ => prev
  | fuel + 1, dist, prev, heap =>
    match popMin heap with
    | none => prev
    | some ((cd, cn), rest) =>
      if cn = dst then prev
      else if dist cn < cd then dijkstraLoop A dst fuel dist prev rest
      else
        let r := relaxEdges cn cd A.edges dist prev []
        dijkstraLoop A dst fuel r.1 r.2.1 (rest ++ r.2.2)

/-- The reconstruction loop: follow predecessors from the target, then check
the walk ended at the source.  The accumulated path is reversed at the end,
as in the code. -/
def reconGo (src : String) (prev : String → Option String) :
    Nat → String → List String → Option (List String)
  | 0, _, _ => none
  | fuel + 1, cur, acc =>
    match prev cur with
    | some p => reconGo src prev fuel p (acc ++ [cur])
    | none => if cur = src then some ((acc ++ [cur]).reverse) else none

/-- `RelationshipAnalyzer::find_shortest_path`.  The distance map the code
builds — `∞` at every node key, then `0` at the source, with absent keys
read as `∞` via `unwrap_or` — equals the function below.  The predecessor
map is acyclic whenever edge costs are nonnegative, so the reconstruction
fuel is then sufficient. -/
def find_shortest_path (A : RelationshipAnalyzer) (src dst : String) :
    Option (List String) :=
  let dist0 : String → WithTop ℚ := fun v => if v = src then 0 else ⊤
  let fuel := (A.nodes.length + A.edges.length + 1) * (A.edges.length + 1) * 4 + 1
  let prevF := dijkstraLoop A dst fuel dist0 (fun _ => none) [((0 : WithTop ℚ), src)]
  reconGo src prevF (2 * A.edges.length + 2) dst []

end RelationshipAnalyzer

/-! # Theorems

The rest of the file states and settles the specified properties of the
definitions above. -/

/-! ## C8 — embedding dimension mismatch yields similarity 0 and no edge -/

/-- C8: for chunks whose embeddings are both non-empty but of different
lengths, `calculate_similarity` is `0` during `build_relationships` — a
dimension mismatch is not an error — and, when the similarity threshold is
non-negative, the pair contributes no Similarity edge. -/
theorem dimension_mismatch_similarity_zero
    (sqrtFn : ℚ → ℚ) (st : GraphBuilder) (c1 c2 : Chunk)
    (h1 : c1.embedding ≠ []) (h2 : c2.embedding ≠ [])
    (hlen : c1.embedding.length ≠ c2.embedding.length) :
    GraphBuilder.calculate_similarity sqrtFn c1 c2 = 0 ∧
      (0 ≤ st.similarity_threshold →
        (GraphBuilder.build_similarity_edges sqrtFn st [c1, c2]).edges = st.edges) := by
  have hsim : GraphBuilder.calculate_similarity sqrtFn c1 c2 = 0 := by
    unfold GraphBuilder.calculate_similarity GraphBuilder.cosine_similarity
    rw [if_pos ⟨h1, h2⟩, if_pos hlen]
  refine ⟨hsim, fun hth => ?_⟩
  have hpairs : GraphBuilder.simPairs [c1, c2] = [(c1, c2)] := rfl
  unfold GraphBuilder.build_similarity_edges
  rw [hpairs]
  simp only [List.filterMap_cons, List.filterMap_nil, hsim]
  rw [if_neg (by exact fun hlt => absurd (lt_of_le_of_lt hth hlt) (lt_irrefl 0))]
  simp

/-- Witness for C8 at embeddings `[1]` and `[1, 2]` with threshold `0`. -/
theorem dimension_mismatch_similarity_zero_witness :
    GraphBuilder.calculate_similarity (fun _ => 0)
        ⟨"c1", "", [1], ⟨"f", ChunkType.Text, none, none, [], 0⟩, (0, 0)⟩
        ⟨"c2", "", [1, 2], ⟨"f", ChunkType.Text, none, none, [], 0⟩, (0, 0)⟩ = 0 ∧
      (GraphBuilder.build_similarity_edges (fun _ => 0) (GraphBuilder.new 0)
        [⟨"c1", "", [1], ⟨"f", ChunkType.Text, none, none, [], 0⟩, (0, 0)⟩,
         ⟨"c2", "", [1, 2], ⟨"f", ChunkType.Text, none, none, [], 0⟩, (0, 0)⟩]).edges = [] := by
  have h := dimension_mismatch_similarity_zero (fun _ => 0) (GraphBuilder.new 0)
    ⟨"c1", "", [1], ⟨"f", ChunkType.Text, none, none, [], 0⟩, (0, 0)⟩
    ⟨"c2", "", [1, 2], ⟨"f", ChunkType.Text, none, none, [], 0⟩, (0, 0)⟩
    (by simp) (by simp) (by simp)
  exact ⟨h.1, h.2 le_rfl⟩

/-! ## C3 — `enhance "what is uvm config db"`

The specification (and the repository's own test
`test_uvm_query_enhancement`) expect intent `Concept` and an enhanced
string containing the injected synonym `uvm_config_db`.  The code disagrees:
after abbreviation expansion the query `what is uvm config database`
contains both the concept indicator `what` and the configuration indicator
`config`, so `detect_intent` falls to `Mixed`; and `add_synonyms` looks for
the literal substring `config_db`, which does not occur (the query has
`config database`), so no synonym is injected. -/

/-- C3: evaluating `enhance` on the exact query of the scenario shows
intent `Mixed` (not `Concept`) and an enhanced string that contains the
expanded abbreviation but not the synonym `uvm_config_db`. -/
theorem enhance_uvm_query_eval :
    (QueryEnhancer.enhance "what is uvm config db").intent = QueryIntent.Mixed ∧
    (QueryEnhancer.enhance "what is uvm config db").enhanced
      = "what is uvm config database" ∧
    containsStr (QueryEnhancer.enhance "what is uvm config db").enhanced
      "database" = true ∧
    containsStr (QueryEnhancer.enhance "what is uvm config db").enhanced
      "uvm_config_db" = false := by
  decide

/-! ## C4 and C9 — the diversity reranker -/

namespace SemanticSearch

theorem final_score_zero_diversity (c : SearchResult) (r : List SearchResult) :
    final_score c r 0 = c.score := by
  simp [final_score]

theorem select_go_no_improve (r : List SearchResult) (d : ℚ) :
    ∀ (l : List SearchResult) (bs : ℚ), (∀ x ∈ l, final_score x r d ≤ bs) →
      ∀ (i b : Nat), select_go r d l i b bs = b := by
  intro l
  induction l with
  | nil => intro bs _ i b; rfl
  | cons c rest ih =>
    intro bs h i b
    have hc : ¬ bs < final_score c r d := not_lt.mpr (h c (List.mem_cons_self c rest))
    simp only [select_go, if_neg hc]
    exact ih bs (fun x hx => h x (List.mem_cons_of_mem c hx)) (i + 1) b

theorem select_best_sorted_zero (c : SearchResult) (rest r : List SearchResult)
    (hs : ∀ x ∈ rest, x.score ≤ c.score) :
    select_best (c :: rest) r 0 = 0 := by
  unfold select_best
  simp only [select_go, final_score_zero_diversity]
  by_cases h0 : (0 : ℚ) < c.score
  · rw [if_pos h0]
    exact select_go_no_improve r 0 rest c.score
      (fun x hx => by rw [final_score_zero_diversity]; exact hs x hx) 1 0
  · rw [if_neg h0]
    exact select_go_no_improve r 0 rest 0
      (fun x hx => by
        rw [final_score_zero_diversity]
        exact le_trans (hs x hx) (not_lt.mp h0)) 1 0

theorem rerank_loop_zero_sorted (n : Nat) :
    ∀ (remaining reranked : List SearchResult),
      reranked.length + remaining.length = n →
      remaining.Pairwise (fun a b => b.score ≤ a.score) →
      rerank_loop 0 n remaining.length reranked remaining = reranked ++ remaining := by
  intro remaining
  induction remaining with
  | nil => intro reranked _ _; simp [rerank_loop]
  | cons c rest ih =>
    intro reranked hlen hsort
    have hne : (c :: rest : List SearchResult) ≠ [] := by simp
    have hlt : ¬ n ≤ reranked.length := by
      simp only [List.length_cons] at hlen
      omega
    have hidx : select_best (c :: rest) reranked 0 = 0 :=
      select_best_sorted_zero c rest reranked
        (fun x hx => List.rel_of_pairwise_cons hsort hx)
    have hget : (c :: rest).getD 0 default = c := rfl
    have herase : (c :: rest).eraseIdx 0 = rest := rfl
    simp only [List.length_cons, rerank_loop, if_neg hne, if_neg hlt, hidx, hget, herase]
    have := ih (reranked ++ [c])
      (by
        simp only [List.length_append, List.length_cons, List.length_nil] at hlen ⊢
        omega)
      (List.Pairwise.of_cons hsort)
    rw [this]
    simp

/-- C4 (amended): on an input already sorted in descending score order —
the shape produced by the threshold-filter stage — `rerank_with_diversity`
with diversity factor `0` returns the input unchanged. -/
theorem rerank_with_diversity_zero_sorted (results : List SearchResult)
    (hsort : results.Pairwise (fun a b => b.score ≤ a.score)) :
    rerank_with_diversity results 0 = results := by
  unfold rerank_with_diversity
  by_cases hlen : results.length ≤ 1
  · rw [if_pos hlen]
  · rw [if_neg hlen]
    match results, hsort with
    | [], _ => rfl
    | best :: remaining, hsort =>
      have h := rerank_loop_zero_sorted (best :: remaining).length remaining [best]
        (by simp only [List.length_cons, List.length_nil]; omega)
        (List.Pairwise.of_cons hsort)
      show rerank_loop 0 (best :: remaining).length remaining.length [best] remaining
        = best :: remaining
      rw [h]
      rfl

/-- Witness for C4 on a concrete descending-sorted list. -/
theorem rerank_with_diversity_zero_sorted_witness :
    rerank_with_diversity
        [⟨"a", 3, "x", []⟩, ⟨"b", 2, "y", []⟩, ⟨"c", 1, "z", []⟩] 0 =
      [⟨"a", 3, "x", []⟩, ⟨"b", 2, "y", []⟩, ⟨"c", 1, "z", []⟩] :=
  rerank_with_diversity_zero_sorted _ (by with_unfolding_all decide)

/-- Counterexample to C4 as stated: on an input that is not sorted
descending (scores 1, 2, 3), `rerank_with_diversity` with diversity factor
`0` does not return the input order. -/
theorem rerank_with_diversity_zero_counterexample :
    rerank_with_diversity
        [⟨"a", 1, "x", []⟩, ⟨"b", 2, "y", []⟩, ⟨"c", 3, "z", []⟩] 0 ≠
      [⟨"a", 1, "x", []⟩, ⟨"b", 2, "y", []⟩, ⟨"c", 3, "z", []⟩] := by
  with_unfolding_all decide

theorem getD_cons_eraseIdx_perm (l : List SearchResult) (i : Nat) (h : i < l.length) :
    List.Perm (l.getD i default :: l.eraseIdx i) l := by
  induction l generalizing i with
  | nil => simp at h
  | cons a t ih =>
    cases i with
    | zero => simp
    | succ j =>
      have hj : j < t.length := by simpa using h
      have hstep := ih j hj
      have h1 : (a :: t).getD (j + 1) default = t.getD j default := rfl
      have h2 : (a :: t).eraseIdx (j + 1) = a :: t.eraseIdx j := rfl
      rw [h1, h2]
      exact (List.Perm.swap a (t.getD j default) (t.eraseIdx j)).trans (hstep.cons a)

theorem rerank_loop_perm (d : ℚ) (n : Nat) :
    ∀ (fuel : Nat) (remaining reranked : List SearchResult),
      fuel = remaining.length →
      reranked.length + remaining.length ≤ n →
      List.Perm (rerank_loop d n fuel reranked remaining) (reranked ++ remaining) := by
  intro fuel
  induction fuel with
  | zero =>
    intro remaining reranked hf _
    have : remaining = [] := List.eq_nil_of_length_eq_zero hf.symm
    subst this
    simp [rerank_loop]
  | succ fuel ih =>
    intro remaining reranked hf hn
    have hne : remaining ≠ [] := by
      intro h; subst h; simp at hf
    have hlt : ¬ n ≤ reranked.length := by
      have : 1 ≤ remaining.length := by
        cases remaining with
        | nil => exact absurd rfl hne
        | cons _ _ => simp
      omega
    simp only [rerank_loop, if_neg hne, if_neg hlt]
    have hidx : select_best remaining reranked d < remaining.length :=
      select_best_lt remaining reranked d hne
    have hflen : fuel = (remaining.eraseIdx (select_best remaining reranked d)).length := by
      rw [List.length_eraseIdx_of_lt hidx]
      omega
    have hperm := getD_cons_eraseIdx_perm remaining (select_best remaining reranked d) hidx
    have hlen2 : (reranked ++ [remaining.getD (select_best remaining reranked d) default]).length
        + (remaining.eraseIdx (select_best remaining reranked d)).length ≤ n := by
      simp only [List.length_append, List.length_cons, List.length_nil]
      rw [List.length_eraseIdx_of_lt hidx]
      omega
    refine List.Perm.trans (ih _ _ hflen hlen2) ?_
    rw [List.append_assoc, List.singleton_append]
    exact List.Perm.append_left reranked hperm

/-- C9: for every input and every diversity factor, `rerank_with_diversity`
returns a permutation of its input — the same length and the same multiset
of results, none dropped, duplicated, or altered. -/
theorem rerank_with_diversity_perm (results : List SearchResult) (d : ℚ) :
    List.Perm (rerank_with_diversity results d) results := by
  unfold rerank_with_diversity
  by_cases hlen : results.length ≤ 1
  · rw [if_pos hlen]
  · rw [if_neg hlen]
    match results with
    | [] => rfl
    | best :: remaining =>
      have h := rerank_loop_perm d (best :: remaining).length remaining.length remaining [best]
        rfl (by simp only [List.length_cons, List.length_nil]; omega)
      show List.Perm
        (rerank_loop d (best :: remaining).length remaining.length [best] remaining)
        (best :: remaining)
      exact h

end SemanticSearch

/-! ## C5 — one chunk for small texts -/

theorem byteLen_append (a b : List Char) : byteLen (a ++ b) = byteLen a + byteLen b := by
  simp [byteLen]

theorem join_data_flatten :
    ∀ (l : List String), (String.join l).data = (l.map String.data).flatten := by
  have aux : ∀ (l : List String) (acc : String),
      (l.foldl (fun r s => r ++ s) acc).data = acc.data ++ (l.map String.data).flatten := by
    intro l
    induction l with
    | nil => intro acc; simp
    | cons s rest ih =>
      intro acc
      simp only [List.foldl_cons, ih (acc ++ s), List.map_cons, List.flatten_cons]
      simp [String.data_append]
  intro l
  have := aux l ""
  simpa [String.join] using this

namespace SemanticChunker

theorem chunkTextGo_no_split (cfg : Config) (ids : Nat → String) (src : String) :
    ∀ (ss : List (List Char)) (cur : List Char) (sp cp : Nat) (acc : List Chunk),
      byteLen cur + byteLen ss.flatten ≤ cfg.max_chunk_size →
      chunkTextGo cfg ids src ss cur sp cp acc =
        chunkTextGo cfg ids src [] (cur ++ ss.flatten) sp
          (cp + (ss.map List.length).sum) acc := by
  intro ss
  induction ss with
  | nil => intro cur sp cp acc _; simp
  | cons s rest ih =>
    intro cur sp cp acc hle
    have hflat : byteLen (s :: rest).flatten = byteLen s + byteLen rest.flatten := by
      rw [List.flatten_cons, byteLen_append]
    have hnosplit : ¬ (cfg.max_chunk_size < byteLen cur + byteLen s ∧ cur ≠ []) := by
      rintro ⟨hlt, -⟩
      have : byteLen cur + byteLen s ≤ cfg.max_chunk_size := by
        rw [hflat] at hle
        omega
      omega
    show (if cfg.max_chunk_size < byteLen cur + byteLen s ∧ cur ≠ [] then _ else _) = _
    rw [if_neg hnosplit]
    rw [ih (cur ++ s) sp (cp + s.length) acc
      (by rw [byteLen_append]; rw [hflat] at hle; omega)]
    rw [List.append_assoc, ← List.flatten_cons]
    have : cp + s.length + (rest.map List.length).sum
        = cp + ((s :: rest).map List.length).sum := by
      simp only [List.map_cons, List.sum_cons]
      omega
    rw [this]

/-- C5 (amended): for a non-empty text whose sentence split concatenates
back to the text exactly (equivalently: the portion of the text after its
last flushed sentence boundary is not whitespace-only, which a trailing
whitespace run would violate) and whose byte length lies in
`[min_chunk_size, max_chunk_size]`, `chunk_text` returns exactly one chunk
whose content is the full input text. -/
theorem chunk_text_single_chunk (cfg : Config) (ids : Nat → String)
    (text src : String)
    (hjoin : String.join (split_sentences text) = text)
    (hne : text ≠ "")
    (hmax : byteLen text.data ≤ cfg.max_chunk_size)
    (hmin : cfg.min_chunk_size ≤ byteLen text.data) :
    (chunk_text cfg ids text src).map (fun c => c.content) = [text] := by
  have hfl : ((split_sentences text).map String.data).flatten = text.data := by
    rw [← join_data_flatten, hjoin]
  have hdata : text.data ≠ [] := by
    intro h
    apply hne
    cases text with
    | mk d => cases h; rfl
  unfold chunk_text
  rw [chunkTextGo_no_split cfg ids src ((split_sentences text).map String.data) [] 0 0 []
    (by rw [hfl]; simp only [byteLen, List.map_nil, List.sum_nil, Nat.zero_add]; exact hmax)]
  rw [List.nil_append, hfl]
  show (if text.data ≠ [] ∧ cfg.min_chunk_size ≤ byteLen text.data then
      [] ++ [mkTextChunk (ids (List.length ([] : List Chunk))) src text.data 0 _]
    else []).map (fun c => c.content) = [text]
  rw [if_pos ⟨hdata, hmin⟩]
  simp [mkTextChunk]

/-- Witness for C5 on `"Hi there."` with sizes `(max, min) = (10, 1)`. -/
theorem chunk_text_single_chunk_witness :
    (chunk_text ⟨10, 1, 2⟩ (fun _ => "c") "Hi there." "doc").map
        (fun c => c.content) = ["Hi there."] :=
  chunk_text_single_chunk ⟨10, 1, 2⟩ (fun _ => "c") "Hi there." "doc"
    (by decide) (by decide) (by decide) (by decide)

/-- Counterexample to C5 as stated: the single-space text has length within
`[min_chunk_size, max_chunk_size] = [1, 10]`, yet `chunk_text` returns no
chunk at all — the sentence splitter discards whitespace-only input. -/
theorem chunk_text_counterexample :
    byteLen (" " : String).data ≤ 10 ∧ 1 ≤ byteLen (" " : String).data ∧
      chunk_text ⟨10, 1, 2⟩ (fun _ => "c") " " "doc" = [] := by
  decide

end SemanticChunker

/-! ## C1 — the sign of the BM25 score -/

theorem list_sum_pos_of_nonneg (l : List ℝ) (hnn : ∀ x ∈ l, 0 ≤ x)
    (hex : ∃ x ∈ l, 0 < x) : 0 < l.sum := by
  induction l with
  | nil => obtain ⟨x, hx, -⟩ := hex; simp at hx
  | cons a rest ih =>
    rw [List.sum_cons]
    obtain ⟨x, hx, hpos⟩ := hex
    rcases List.mem_cons.mp hx with heq | hx'
    · have hpa : 0 < a := heq ▸ hpos
      have : 0 ≤ rest.sum :=
        List.sum_nonneg (fun y hy => hnn y (List.mem_cons_of_mem a hy))
      linarith
    · have h1 : 0 ≤ a := hnn a (List.mem_cons_self a rest)
      have h2 : 0 < rest.sum :=
        ih (fun y hy => hnn y (List.mem_cons_of_mem a hy)) ⟨x, hx', hpos⟩
      linarith

namespace BM25Search

theorem scoreTerm_of_not_mem (st : State) (doc_terms : List String) (qt : String)
    (h : qt ∉ doc_terms) : scoreTerm st doc_terms qt = 0 := by
  unfold scoreTerm
  have hc : doc_terms.count qt = 0 := List.count_eq_zero.mpr h
  rw [hc]
  norm_num

theorem scoreTerm_pos (st : State) (doc_terms : List String) (qt : String)
    (hmem : qt ∈ doc_terms) (hdf : 2 * st.term_doc_freq qt < st.total_docs)
    (havg : 0 < st.avg_doc_length) : 0 < scoreTerm st doc_terms qt := by
  unfold scoreTerm
  have hcount : 0 < doc_terms.count qt := List.count_pos_iff.mpr hmem
  have htf : (0 : ℚ) < doc_terms.count qt := by exact_mod_cast hcount
  rw [if_pos htf]
  have hdfq : (0 : ℚ) ≤ (st.term_doc_freq qt : ℚ) := by positivity
  have harg : 1 < ((st.total_docs : ℚ) - (st.term_doc_freq qt : ℚ) + 1/2) /
      ((st.term_doc_freq qt : ℚ) + 1/2) := by
    rw [one_lt_div (by linarith)]
    have : (2 : ℚ) * (st.term_doc_freq qt : ℚ) < (st.total_docs : ℚ) := by
      exact_mod_cast hdf
    linarith
  have hidf : 0 < Real.log (((st.total_docs : ℚ) - (st.term_doc_freq qt : ℚ) + 1/2) /
      ((st.term_doc_freq qt : ℚ) + 1/2)) := by
    apply Real.log_pos
    have h := (Rat.cast_lt (K := ℝ)).mpr harg
    simpa using h
  have havg' : st.avg_doc_length ≠ 0 := ne_of_gt havg
  rw [if_neg havg']
  have hdl : (0 : ℚ) ≤ (doc_terms.length : ℚ) / st.avg_doc_length := by positivity
  have htfc : (0 : ℚ) < ((doc_terms.count qt : ℚ) * (6/5 + 1)) /
      ((doc_terms.count qt : ℚ) + 6/5 * (1 - 3/4 + 3/4 * (doc_terms.length : ℚ) /
        st.avg_doc_length)) := by
    apply div_pos
    · linarith
    · have : (0 : ℚ) ≤ 3/4 * ((doc_terms.length : ℚ) / st.avg_doc_length) := by positivity
      rw [mul_div_assoc]
      linarith
  apply mul_pos hidf
  exact_mod_cast htfc

/-- C1 (amended): the BM25 score of a query/document pair is 0 when no
query term occurs in the document; it is strictly positive when at least
one query term occurs, provided the indexed corpus has a positive average
document length and every occurring query term appears in fewer than half
the indexed documents (`2·df < N`, i.e. its IDF `ln((N-df+0.5)/(df+0.5))`
is positive).  Without that proviso the score of an occurring term can be
negative, refuting the claim as stated (see the counterexample). -/
theorem calculate_bm25_score_sign (st : State) (query document : String) :
    ((∀ t ∈ tokenize query, t ∉ tokenize document) →
      calculate_bm25_score st (tokenize query) document = 0) ∧
    ((∃ t ∈ tokenize query, t ∈ tokenize document) →
      (∀ t ∈ tokenize query, t ∈ tokenize document →
        2 * st.term_doc_freq t < st.total_docs) →
      0 < st.avg_doc_length →
      0 < calculate_bm25_score st (tokenize query) document) := by
  constructor
  · intro h
    unfold calculate_bm25_score
    apply List.sum_eq_zero
    intro x hx
    obtain ⟨t, ht, rfl⟩ := List.mem_map.mp hx
    exact scoreTerm_of_not_mem st (tokenize document) t (h t ht)
  · rintro ⟨t0, ht0, hmem0⟩ hdf havg
    unfold calculate_bm25_score
    apply list_sum_pos_of_nonneg
    · intro x hx
      obtain ⟨t, ht, rfl⟩ := List.mem_map.mp hx
      by_cases hmem : t ∈ tokenize document
      · exact le_of_lt (scoreTerm_pos st (tokenize document) t hmem (hdf t ht hmem) havg)
      · rw [scoreTerm_of_not_mem st (tokenize document) t hmem]
    · exact ⟨scoreTerm st (tokenize document) t0, List.mem_map_of_mem _ ht0,
        scoreTerm_pos st (tokenize document) t0 hmem0 (hdf t0 ht0 hmem0) havg⟩

/-- Witness for C1 on a three-document corpus (`apple` has `df = 1 < 3/2`,
average document length 3) and the query `apple` against the first
document. -/
theorem calculate_bm25_score_sign_witness :
    0 < calculate_bm25_score
        (["apple apple banana", "cherry date elderberry", "fig grape honeydew"].foldl
          index_document new)
        (tokenize "apple") "apple apple banana" := by
  refine (calculate_bm25_score_sign _ "apple" "apple apple banana").2 ?_ ?_ ?_
  · exact ⟨"apple", by decide, by decide⟩
  · intro t ht hmem
    have h1 : t = "apple" := by
      have : tokenize "apple" = ["apple"] := by decide
      rw [this] at ht
      simpa using ht
    subst h1
    show 2 * (["apple apple banana", "cherry date elderberry",
      "fig grape honeydew"].foldl index_document new).term_doc_freq "apple" <
      (["apple apple banana", "cherry date elderberry",
        "fig grape honeydew"].foldl index_document new).total_docs
    decide
  · show (0 : ℚ) < (["apple apple banana", "cherry date elderberry",
      "fig grape honeydew"].foldl index_document new).avg_doc_length
    with_unfolding_all decide

/-- Counterexample to C1 as stated: index the single document
`apple apple banana`; the query term `apple` occurs in that very document,
yet its document frequency (1) is not below half the corpus size (1), the
IDF `ln((1-1+0.5)/(1+0.5)) = ln(1/3)` is negative, and the BM25 score is
negative rather than strictly positive. -/
theorem bm25_positive_counterexample :
    (∃ t ∈ tokenize "apple", t ∈ tokenize "apple apple banana") ∧
      ¬ (0 < calculate_bm25_score (index_document new "apple apple banana")
            (tokenize "apple") "apple apple banana") := by
  constructor
  · exact ⟨"apple", by decide, by decide⟩
  · have htokq : tokenize "apple" = ["apple"] := by decide
    have htokd : tokenize "apple apple banana" = ["apple", "apple", "banana"] := by decide
    have hdf : (index_document new "apple apple banana").term_doc_freq "apple" = 1 := by
      decide
    have hN : (index_document new "apple apple banana").total_docs = 1 := by decide
    have havg : (index_document new "apple apple banana").avg_doc_length = 3 := by
      with_unfolding_all decide
    have hcount : (["apple", "apple", "banana"].count "apple") = 2 := by decide
    have hlen : (["apple", "apple", "banana"] : List String).length = 3 := by decide
    have hval : scoreTerm (index_document new "apple apple banana")
        ["apple", "apple", "banana"] "apple" = Real.log ((1 : ℝ)/3) * (11/8 : ℝ) := by
      unfold scoreTerm
      simp only [hdf, hN, havg, hcount, hlen]
      norm_num
    unfold calculate_bm25_score
    rw [htokq, htokd]
    simp only [List.map_cons, List.map_nil, List.sum_cons, List.sum_nil, add_zero, hval]
    have hlog : Real.log ((1 : ℝ)/3) < 0 := Real.log_neg (by norm_num) (by norm_num)
    have : Real.log ((1 : ℝ)/3) * (11/8 : ℝ) < 0 :=
      mul_neg_of_neg_of_pos hlog (by norm_num)
    linarith

end BM25Search

/-! ## C6 — sequential edges within one source file -/

theorem insertByKey_perm {α : Type} (f : α → Nat) (x : α) (l : List α) :
    List.Perm (insertByKey f x l) (x :: l) := by
  induction l with
  | nil => rfl
  | cons y rest ih =>
    unfold insertByKey
    by_cases h : f y ≤ f x
    · rw [if_pos h]
      exact (ih.cons y).trans (List.Perm.swap x y rest)
    · rw [if_neg h]

theorem sortByKey_perm {α : Type} (f : α → Nat) (l : List α) :
    List.Perm (sortByKey f l) l := by
  have aux : ∀ (l acc : List α),
      List.Perm (l.foldl (fun acc x => insertByKey f x acc) acc) (acc ++ l) := by
    intro l
    induction l with
    | nil => intro acc; simp
    | cons x rest ih =>
      intro acc
      simp only [List.foldl_cons]
      refine (ih (insertByKey f x acc)).trans ?_
      refine (List.Perm.append_right rest (insertByKey_perm f x acc)).trans ?_
      exact List.perm_middle.symm.trans (by simp)
  have := aux l []
  simpa [sortByKey] using this

theorem insertByKey_pairwise {α : Type} (f : α → Nat) (x : α) (l : List α)
    (h : l.Pairwise (fun a b => f a ≤ f b)) :
    (insertByKey f x l).Pairwise (fun a b => f a ≤ f b) := by
  induction l with
  | nil => simp [insertByKey]
  | cons y rest ih =>
    rw [List.pairwise_cons] at h
    obtain ⟨hy, hrest⟩ := h
    unfold insertByKey
    by_cases hle : f y ≤ f x
    · rw [if_pos hle]
      rw [List.pairwise_cons]
      constructor
      · intro z hz
        have hz2 : z ∈ x :: rest := (insertByKey_perm f x rest).mem_iff.mp hz
        rcases List.mem_cons.mp hz2 with heq | hz'
        · rw [heq]; exact hle
        · exact hy z hz'
      · exact ih hrest
    · rw [if_neg hle]
      rw [List.pairwise_cons]
      refine ⟨fun z hz => ?_, List.Pairwise.cons hy hrest⟩
      have hxy : f x ≤ f y := Nat.le_of_lt (Nat.lt_of_not_le hle)
      rcases List.mem_cons.mp hz with rfl | hz'
      · exact hxy
      · exact le_trans hxy (hy z hz')

theorem sortByKey_pairwise {α : Type} (f : α → Nat) (l : List α) :
    (sortByKey f l).Pairwise (fun a b => f a ≤ f b) := by
  have aux : ∀ (l acc : List α), acc.Pairwise (fun a b => f a ≤ f b) →
      (l.foldl (fun acc x => insertByKey f x acc) acc).Pairwise (fun a b => f a ≤ f b) := by
    intro l
    induction l with
    | nil => intro acc h; exact h
    | cons x rest ih =>
      intro acc h
      exact ih (insertByKey f x acc) (insertByKey_pairwise f x acc h)
  exact aux l [] List.Pairwise.nil

namespace GraphBuilder

theorem groupBySource_single (s : String) (chunks : List Chunk)
    (hsrc : ∀ c ∈ chunks, c.metadata.source_file = s) (hne : chunks ≠ []) :
    groupBySource chunks = [(s, chunks)] := by
  have aux : ∀ (rest : List Chunk) (g : List Chunk),
      (∀ c ∈ rest, c.metadata.source_file = s) →
      rest.foldl (fun acc c => insertGrouped c.metadata.source_file c acc) [(s, g)] =
        [(s, g ++ rest)] := by
    intro rest
    induction rest with
    | nil => intro g _; simp
    | cons c r ih =>
      intro g hs
      simp only [List.foldl_cons]
      rw [hs c (List.mem_cons_self c r)]
      show List.foldl (fun acc c => insertGrouped c.metadata.source_file c acc)
        (insertGrouped s c [(s, g)]) r = _
      have : insertGrouped s c [(s, g)] = [(s, g ++ [c])] := by
        unfold insertGrouped
        rw [if_pos rfl]
      rw [this, ih (g ++ [c]) (fun d hd => hs d (List.mem_cons_of_mem c hd))]
      simp
  match chunks, hne with
  | c :: rest, _ =>
    unfold groupBySource
    simp only [List.foldl_cons]
    rw [hsrc c (List.mem_cons_self c rest)]
    show List.foldl (fun acc c => insertGrouped c.metadata.source_file c acc)
      (insertGrouped s c []) rest = _
    have h0 : insertGrouped s c [] = [(s, [c])] := rfl
    rw [h0, aux rest [c] (fun d hd => hsrc d (List.mem_cons_of_mem c hd))]
    rfl

/-- C6: for a batch of n ≥ 1 chunks sharing one source file with pairwise
distinct start boundaries, `build_sequential_relationships` appends exactly
n − 1 Sequential edges, one from each chunk to its successor in ascending
start-boundary order (`sorted` below is the unique ascending enumeration of
the batch). -/
theorem build_sequential_spec (st : GraphBuilder) (chunks sorted : List Chunk) (s : String)
    (hsrc : ∀ c ∈ chunks, c.metadata.source_file = s) (hne : chunks ≠ [])
    (hdist : chunks.Pairwise (fun a b => a.boundaries.1 ≠ b.boundaries.1))
    (hperm : List.Perm sorted chunks)
    (hsorted : sorted.Pairwise (fun a b => a.boundaries.1 < b.boundaries.1)) :
    (build_sequential_relationships st chunks).edges =
      st.edges ++ (sorted.zip sorted.tail).map (fun p =>
        { fromId := p.1.id, toId := p.2.id, edge_type := EdgeType.Sequential,
          weight := (1 : ℚ) }) ∧
    (build_sequential_relationships st chunks).edges.length =
      st.edges.length + (chunks.length - 1) := by
  haveI : IsAntisymm Chunk (fun a b => a.boundaries.1 < b.boundaries.1) :=
    ⟨fun a b h1 h2 => absurd h2 (Nat.lt_asymm h1)⟩
  have hkey : sortByKey (fun c => c.boundaries.1) chunks = sorted := by
    have hp : List.Perm (sortByKey (fun c => c.boundaries.1) chunks) sorted :=
      (sortByKey_perm _ chunks).trans hperm.symm
    have hle := sortByKey_pairwise (fun c => c.boundaries.1) chunks
    have hne' : (sortByKey (fun c => c.boundaries.1) chunks).Pairwise
        (fun a b => a.boundaries.1 ≠ b.boundaries.1) :=
      (((sortByKey_perm _ chunks).pairwise_iff
        (fun h => Ne.symm h)).mpr hdist)
    have hstrict : (sortByKey (fun c => c.boundaries.1) chunks).Pairwise
        (fun a b => a.boundaries.1 < b.boundaries.1) :=
      (hle.and hne').imp (fun h => Nat.lt_of_le_of_ne h.1 h.2)
    exact List.eq_of_perm_of_sorted hp hstrict hsorted
  have hgroup := groupBySource_single s chunks hsrc hne
  have hedges : (build_sequential_relationships st chunks).edges =
      st.edges ++ (sorted.zip sorted.tail).map (fun p =>
        { fromId := p.1.id, toId := p.2.id, edge_type := EdgeType.Sequential,
          weight := (1 : ℚ) }) := by
    unfold build_sequential_relationships
    rw [hgroup]
    simp only [List.flatMap_cons, List.flatMap_nil, List.append_nil]
    unfold sequentialEdgesOf
    rw [hkey]
  refine ⟨hedges, ?_⟩
  rw [hedges]
  simp only [List.length_append, List.length_map, List.length_zip, List.length_tail]
  have := hperm.length_eq
  omega

/-- Witness for C6: three chunks of one file with boundaries
`(0,10), (10,20), (20,30)` produce exactly the two edges
chunk0 → chunk1 and chunk1 → chunk2. -/
theorem build_sequential_spec_witness :
    (build_sequential_relationships (new 0)
        [⟨"c0", "x", [], ⟨"f", ChunkType.Text, none, none, [], 0⟩, (0, 10)⟩,
         ⟨"c1", "y", [], ⟨"f", ChunkType.Text, none, none, [], 0⟩, (10, 20)⟩,
         ⟨"c2", "z", [], ⟨"f", ChunkType.Text, none, none, [], 0⟩, (20, 30)⟩]).edges =
      [] ++ [{ fromId := "c0", toId := "c1", edge_type := EdgeType.Sequential,
               weight := (1 : ℚ) },
             { fromId := "c1", toId := "c2", edge_type := EdgeType.Sequential,
               weight := (1 : ℚ) }] := by
  have h := build_sequential_spec (new 0)
    [⟨"c0", "x", [], ⟨"f", ChunkType.Text, none, none, [], 0⟩, (0, 10)⟩,
     ⟨"c1", "y", [], ⟨"f", ChunkType.Text, none, none, [], 0⟩, (10, 20)⟩,
     ⟨"c2", "z", [], ⟨"f", ChunkType.Text, none, none, [], 0⟩, (20, 30)⟩]
    [⟨"c0", "x", [], ⟨"f", ChunkType.Text, none, none, [], 0⟩, (0, 10)⟩,
     ⟨"c1", "y", [], ⟨"f", ChunkType.Text, none, none, [], 0⟩, (10, 20)⟩,
     ⟨"c2", "z", [], ⟨"f", ChunkType.Text, none, none, [], 0⟩, (20, 30)⟩]
    "f" (by decide) (by decide) (by decide) (List.Perm.refl _) (by decide)
  rw [h.1]
  rfl

end GraphBuilder

/-! ## C7 — shortest path: self-path and unreachable pairs -/

theorem reachesIn_nil {x y : String} (h : ReachesIn [] x y) : x = y := by
  induction h with
  | refl => rfl
  | step _ hadj ih =>
    obtain ⟨e, he, -⟩ := hadj
    exact absurd he (List.not_mem_nil e)

namespace RelationshipAnalyzer

theorem minEntry_mem : ∀ (x : HeapEntry) (l : List HeapEntry),
    minEntry x l = x ∨ minEntry x l ∈ l := by
  intro x l
  induction l generalizing x with
  | nil => exact Or.inl rfl
  | cons y rest ih =>
    unfold minEntry
    by_cases h : entryLe x y = true
    · rw [if_pos h]
      rcases ih x with h1 | h1
      · exact Or.inl h1
      · exact Or.inr (List.mem_cons_of_mem y h1)
    · rw [if_neg h]
      rcases ih y with h1 | h1
      · exact Or.inr (by rw [h1]; exact List.mem_cons_self y rest)
      · exact Or.inr (List.mem_cons_of_mem y h1)

theorem removeFirst_sub : ∀ (y : HeapEntry) (l : List HeapEntry) (z : HeapEntry),
    z ∈ removeFirst y l → z ∈ l := by
  intro y l
  induction l with
  | nil => intro z hz; exact absurd hz (List.not_mem_nil z)
  | cons w rest ih =>
    intro z hz
    unfold removeFirst at hz
    by_cases h : w = y
    · rw [if_pos h] at hz
      exact List.mem_cons_of_mem w hz
    · rw [if_neg h] at hz
      rcases List.mem_cons.mp hz with heq | hz'
      · exact heq ▸ List.mem_cons_self w rest
      · exact List.mem_cons_of_mem w (ih z hz')

theorem popMin_spec {l : List HeapEntry} {m : HeapEntry} {r : List HeapEntry}
    (h : popMin l = some (m, r)) : m ∈ l ∧ ∀ z ∈ r, z ∈ l := by
  cases l with
  | nil => exact absurd h (by simp [popMin])
  | cons x rest =>
    unfold popMin at h
    have h1 : m = minEntry x rest ∧ r = removeFirst (minEntry x rest) (x :: rest) := by
      have := Option.some.inj h
      exact ⟨congrArg Prod.fst this.symm, congrArg Prod.snd this.symm⟩
    obtain ⟨hm, hr⟩ := h1
    constructor
    · rcases minEntry_mem x rest with h2 | h2
      · rw [hm, h2]; exact List.mem_cons_self x rest
      · rw [hm]; exact List.mem_cons_of_mem x h2
    · intro z hz
      rw [hr] at hz
      exact removeFirst_sub _ _ z hz

theorem popMin_singleton (x : HeapEntry) : popMin [x] = some (x, []) := by
  simp [popMin, minEntry, removeFirst]

theorem relaxEdges_reach (A : RelationshipAnalyzer) (src cn : String) (cd : WithTop ℚ)
    (hcn : ReachesIn A.edges src cn) :
    ∀ (es : List GraphEdge), (∀ e ∈ es, e ∈ A.edges) →
    ∀ (dist : String → WithTop ℚ) (prev : String → Option String)
      (pushes : List HeapEntry),
      (∀ x p, prev x = some p → ReachesIn A.edges src x) →
      (∀ q ∈ pushes, ReachesIn A.edges src q.2) →
      (∀ x p, (relaxEdges cn cd es dist prev pushes).2.1 x = some p →
        ReachesIn A.edges src x) ∧
      (∀ q ∈ (relaxEdges cn cd es dist prev pushes).2.2, ReachesIn A.edges src q.2) := by
  intro es
  induction es with
  | nil => intro _ dist prev pushes hprev hpush; exact ⟨hprev, hpush⟩
  | cons e rest ih =>
    intro hsub dist prev pushes hprev hpush
    have hsub' : ∀ e' ∈ rest, e' ∈ A.edges :=
      fun e' he' => hsub e' (List.mem_cons_of_mem e he')
    cases hnb : GraphBuilder.neighborOf e cn with
    | none =>
      simp only [relaxEdges, hnb]
      exact ih hsub' dist prev pushes hprev hpush
    | some nb =>
      simp only [relaxEdges, hnb]
      have hreach_nb : ReachesIn A.edges src nb :=
        ReachesIn.step hcn ⟨e, hsub e (List.mem_cons_self e rest), hnb⟩
      by_cases hlt : cd + edgeCost e < dist nb
      · rw [if_pos hlt]
        apply ih hsub'
        · intro x p hx
          by_cases hxnb : x = nb
          · exact hxnb ▸ hreach_nb
          · rw [if_neg hxnb] at hx
            exact hprev x p hx
        · intro q hq
          rcases List.mem_append.mp hq with hq' | hq'
          · exact hpush q hq'
          · rw [List.mem_singleton.mp hq']
            exact hreach_nb
      · rw [if_neg hlt]
        exact ih hsub' dist prev pushes hprev hpush

theorem dijkstraLoop_reach (A : RelationshipAnalyzer) (src dst : String) :
    ∀ (fuel : Nat) (dist : String → WithTop ℚ) (prev : String → Option String)
      (heap : List HeapEntry),
      (∀ x p, prev x = some p → ReachesIn A.edges src x) →
      (∀ q ∈ heap, ReachesIn A.edges src q.2) →
      ∀ x p, dijkstraLoop A dst fuel dist prev heap x = some p →
        ReachesIn A.edges src x := by
  intro fuel
  induction fuel with
  | zero => intro dist prev heap hprev _ x p hx; exact hprev x p hx
  | succ fuel ih =>
    intro dist prev heap hprev hheap x p hx
    cases hpop : popMin heap with
    | none =>
      simp only [dijkstraLoop, hpop] at hx
      exact hprev x p hx
    | some mr =>
      obtain ⟨⟨cd, cn⟩, rest⟩ := mr
      simp only [dijkstraLoop, hpop] at hx
      obtain ⟨hmem, hrest⟩ := popMin_spec hpop
      have hcn : ReachesIn A.edges src cn := hheap _ hmem
      have hrest' : ∀ q ∈ rest, ReachesIn A.edges src q.2 :=
        fun q hq => hheap q (hrest q hq)
      by_cases hdst : cn = dst
      · rw [if_pos hdst] at hx
        exact hprev x p hx
      · rw [if_neg hdst] at hx
        by_cases hstale : dist cn < cd
        · rw [if_pos hstale] at hx
          exact ih dist prev rest hprev hrest' x p hx
        · rw [if_neg hstale] at hx
          have hrelax := relaxEdges_reach A src cn cd hcn A.edges (fun _ h => h)
            dist prev [] hprev (by simp)
          apply ih _ _ _ hrelax.1 _ x p hx
          intro q hq
          rcases List.mem_append.mp hq with hq' | hq'
          · exact hrest' q hq'
          · exact hrelax.2 q hq'

/-- C7: `find_shortest_path(A, A)` is the single-node path `[A]` for every
node of the graph, and `find_shortest_path(A, B)` is `none` whenever no
undirected edge path connects `A` to `B`. -/
theorem find_shortest_path_spec (A : RelationshipAnalyzer) (a b : String) :
    ((∃ n, (a, n) ∈ A.nodes) → find_shortest_path A a a = some [a]) ∧
    (¬ ReachesIn A.edges a b → find_shortest_path A a b = none) := by
  constructor
  · intro _
    have hloop : dijkstraLoop A a
        ((A.nodes.length + A.edges.length + 1) * (A.edges.length + 1) * 4 + 1)
        (fun v => if v = a then 0 else ⊤) (fun _ => none) [((0 : WithTop ℚ), a)]
        = (fun _ => none) := by
      simp only [dijkstraLoop, popMin_singleton]
      simp
    show reconGo a (dijkstraLoop A a
        ((A.nodes.length + A.edges.length + 1) * (A.edges.length + 1) * 4 + 1)
        (fun v => if v = a then 0 else ⊤) (fun _ => none) [((0 : WithTop ℚ), a)])
      (2 * A.edges.length + 2) a [] = some [a]
    rw [hloop]
    show reconGo a (fun _ => none) (2 * A.edges.length + 1 + 1) a [] = some [a]
    simp [reconGo]
  · intro hreach
    have hprev := dijkstraLoop_reach A a b
      ((A.nodes.length + A.edges.length + 1) * (A.edges.length + 1) * 4 + 1)
      (fun v => if v = a then 0 else ⊤) (fun _ => none) [((0 : WithTop ℚ), a)]
      (fun x p hx => absurd hx (by simp))
      (by
        intro q hq
        rw [List.mem_singleton.mp hq]
        exact ReachesIn.refl)
    show reconGo a (dijkstraLoop A b
        ((A.nodes.length + A.edges.length + 1) * (A.edges.length + 1) * 4 + 1)
        (fun v => if v = a then 0 else ⊤) (fun _ => none) [((0 : WithTop ℚ), a)])
      (2 * A.edges.length + 1 + 1) b [] = none
    cases hb : dijkstraLoop A b
        ((A.nodes.length + A.edges.length + 1) * (A.edges.length + 1) * 4 + 1)
        (fun v => if v = a then 0 else ⊤) (fun _ => none) [((0 : WithTop ℚ), a)] b with
    | some p => exact absurd (hprev b p hb) hreach
    | none =>
      have hba : b ≠ a := by
        intro h
        exact hreach (h ▸ ReachesIn.refl)
      simp only [reconGo, hb]
      rw [if_neg hba]

/-- Witness for C7 on a two-node, zero-edge graph. -/
theorem find_shortest_path_spec_witness :
    find_shortest_path
        ⟨[("A", ⟨"A", NodeType.Chunk, "", []⟩), ("B", ⟨"B", NodeType.Chunk, "", []⟩)], []⟩
        "A" "A" = some ["A"] ∧
      find_shortest_path
        ⟨[("A", ⟨"A", NodeType.Chunk, "", []⟩), ("B", ⟨"B", NodeType.Chunk, "", []⟩)], []⟩
        "A" "B" = none := by
  constructor
  · exact (find_shortest_path_spec _ "A" "B").1
      ⟨⟨"A", NodeType.Chunk, "", []⟩, by decide⟩
  · exact (find_shortest_path_spec _ "A" "B").2
      (fun h => absurd (reachesIn_nil h) (by decide))

end RelationshipAnalyzer

/-! ## C10 — no edge ever dangles -/

namespace GraphBuilder

theorem insertNode_isSome (ns : String → Option GraphNode) (k : String) (v : GraphNode)
    (x : String) (h : (ns x).isSome) : (insertNode ns k v x).isSome := by
  unfold insertNode
  by_cases hx : x = k <;> simp [hx, h]

theorem insertNode_isSome_self (ns : String → Option GraphNode) (k : String)
    (v : GraphNode) : (insertNode ns k v k).isSome := by
  simp [insertNode]

theorem add_chunk_node_edges (st : GraphBuilder) (c : Chunk) :
    (add_chunk_node st c).edges = st.edges := rfl

theorem add_chunk_node_mono (st : GraphBuilder) (c : Chunk) (x : String)
    (h : (st.nodes x).isSome) : ((add_chunk_node st c).nodes x).isSome :=
  insertNode_isSome st.nodes c.id _ x h

theorem add_chunk_node_self (st : GraphBuilder) (c : Chunk) :
    ((add_chunk_node st c).nodes c.id).isSome :=
  insertNode_isSome_self st.nodes c.id _

theorem addChunkNodes_edges : ∀ (chunks : List Chunk) (st : GraphBuilder),
    (chunks.foldl add_chunk_node st).edges = st.edges := by
  intro chunks
  induction chunks with
  | nil => intro st; rfl
  | cons c rest ih =>
    intro st
    simp only [List.foldl_cons]
    rw [ih (add_chunk_node st c), add_chunk_node_edges]

theorem addChunkNodes_mono : ∀ (chunks : List Chunk) (st : GraphBuilder) (x : String),
    (st.nodes x).isSome → ((chunks.foldl add_chunk_node st).nodes x).isSome := by
  intro chunks
  induction chunks with
  | nil => intro st x h; exact h
  | cons c rest ih =>
    intro st x h
    exact ih (add_chunk_node st c) x (add_chunk_node_mono st c x h)

theorem addChunkNodes_self : ∀ (chunks : List Chunk) (st : GraphBuilder) (c : Chunk),
    c ∈ chunks → ((chunks.foldl add_chunk_node st).nodes c.id).isSome := by
  intro chunks
  induction chunks with
  | nil => intro st c hc; exact absurd hc (List.not_mem_nil c)
  | cons d rest ih =>
    intro st c hc
    rcases List.mem_cons.mp hc with heq | hc'
    · subst heq
      exact addChunkNodes_mono rest (add_chunk_node st c) c.id (add_chunk_node_self st c)
    · exact ih (add_chunk_node st d) c hc'

theorem simPairs_mem : ∀ (l : List Chunk) (p : Chunk × Chunk),
    p ∈ simPairs l → p.1 ∈ l ∧ p.2 ∈ l := by
  intro l
  induction l with
  | nil => intro p hp; exact absurd hp (List.not_mem_nil p)
  | cons c rest ih =>
    intro p hp
    unfold simPairs at hp
    rcases List.mem_append.mp hp with hp' | hp'
    · obtain ⟨d, hd, heq⟩ := List.mem_map.mp hp'
      rw [← heq]
      exact ⟨List.mem_cons_self c rest, List.mem_cons_of_mem c hd⟩
    · obtain ⟨h1, h2⟩ := ih p hp'
      exact ⟨List.mem_cons_of_mem c h1, List.mem_cons_of_mem c h2⟩

theorem build_similarity_edges_nodes (sqrtFn : ℚ → ℚ) (st : GraphBuilder)
    (chunks : List Chunk) : (build_similarity_edges sqrtFn st chunks).nodes = st.nodes :=
  rfl

theorem build_similarity_edges_dangle (sqrtFn : ℚ → ℚ) (st : GraphBuilder)
    (chunks : List Chunk) (hP : dangleFree st)
    (hc : ∀ c ∈ chunks, (st.nodes c.id).isSome) :
    dangleFree (build_similarity_edges sqrtFn st chunks) := by
  intro e he
  rw [build_similarity_edges_nodes]
  have he' : e ∈ st.edges ++ (simPairs chunks).filterMap (fun p =>
      let similarity := calculate_similarity sqrtFn p.1 p.2
      if st.similarity_threshold < similarity then
        some { fromId := p.1.id, toId := p.2.id, edge_type := EdgeType.Similarity,
               weight := similarity }
      else none) := he
  rcases List.mem_append.mp he' with h1 | h1
  · exact hP e h1
  · obtain ⟨p, hp, hsome⟩ := List.mem_filterMap.mp h1
    by_cases hcond : st.similarity_threshold < calculate_similarity sqrtFn p.1 p.2
    · simp only [if_pos hcond] at hsome
      have := Option.some.inj hsome
      rw [← this]
      obtain ⟨hm1, hm2⟩ := simPairs_mem chunks p hp
      exact ⟨hc p.1 hm1, hc p.2 hm2⟩
    · simp only [if_neg hcond] at hsome
      exact absurd hsome (Option.noConfusion)

theorem addWordNode_mono (st : GraphBuilder) (cid w x : String)
    (h : (st.nodes x).isSome) : ((addWordNode st cid w).nodes x).isSome := by
  unfold addWordNode
  by_cases hw : (st.nodes w).isSome
  · rw [if_pos hw]; exact h
  · rw [if_neg hw]; exact insertNode_isSome st.nodes w _ x h

theorem addWordNode_dangle (st : GraphBuilder) (cid w : String)
    (hP : dangleFree st) (hcid : (st.nodes cid).isSome) :
    dangleFree (addWordNode st cid w) := by
  intro e he
  have hw : ((addWordNode st cid w).nodes w).isSome := by
    unfold addWordNode
    by_cases hw0 : (st.nodes w).isSome
    · rw [if_pos hw0]; exact hw0
    · rw [if_neg hw0]; exact insertNode_isSome_self st.nodes w _
  have hedges : (addWordNode st cid w).edges =
      (if (st.nodes w).isSome then st else _).edges ++
        [{ fromId := cid, toId := w, edge_type := EdgeType.Contains, weight := 1 }] := rfl
  have hsplit : e ∈ (if (st.nodes w).isSome then st.edges else st.edges) ++
      [{ fromId := cid, toId := w, edge_type := EdgeType.Contains, weight := (1 : ℚ) }] := by
    unfold addWordNode at he
    by_cases hw0 : (st.nodes w).isSome
    · rw [if_pos hw0] at he ⊢; exact he
    · rw [if_neg hw0] at he ⊢; exact he
  rw [ite_self st.edges] at hsplit
  rcases List.mem_append.mp hsplit with h1 | h1
  · obtain ⟨hf, ht⟩ := hP e h1
    exact ⟨addWordNode_mono st cid w _ hf, addWordNode_mono st cid w _ ht⟩
  · rw [List.mem_singleton.mp h1]
    exact ⟨addWordNode_mono st cid w cid hcid, hw⟩

theorem wordFold_dangle (cid : String) : ∀ (ws : List String) (st : GraphBuilder),
    dangleFree st → (st.nodes cid).isSome →
    dangleFree (ws.foldl (fun s2 w => addWordNode s2 cid w) st) ∧
      (∀ x, (st.nodes x).isSome →
        (((ws.foldl (fun s2 w => addWordNode s2 cid w) st)).nodes x).isSome) := by
  intro ws
  induction ws with
  | nil => intro st hP _; exact ⟨hP, fun _ h => h⟩
  | cons w rest ih =>
    intro st hP hcid
    have h1 := addWordNode_dangle st cid w hP hcid
    have h2 := addWordNode_mono st cid w cid hcid
    obtain ⟨hA, hB⟩ := ih (addWordNode st cid w) h1 h2
    exact ⟨hA, fun x hx => hB x (addWordNode_mono st cid w x hx)⟩

theorem extract_word_nodes_dangle : ∀ (chunks : List Chunk) (st : GraphBuilder),
    dangleFree st → (∀ c ∈ chunks, (st.nodes c.id).isSome) →
    dangleFree (extract_word_nodes st chunks) ∧
      (∀ x, (st.nodes x).isSome → ((extract_word_nodes st chunks).nodes x).isSome) := by
  intro chunks
  induction chunks with
  | nil => intro st hP _; exact ⟨hP, fun _ h => h⟩
  | cons c rest ih =>
    intro st hP hc
    have hcid := hc c (List.mem_cons_self c rest)
    obtain ⟨hA, hB⟩ := wordFold_dangle c.id (extract_keywords c.content) st hP hcid
    have hrest : ∀ d ∈ rest, ((((extract_keywords c.content).foldl
        (fun s2 w => addWordNode s2 c.id w) st)).nodes d.id).isSome :=
      fun d hd => hB d.id (hc d (List.mem_cons_of_mem c hd))
    obtain ⟨hA2, hB2⟩ := ih _ hA hrest
    exact ⟨hA2, fun x hx => hB2 x (hB x hx)⟩

theorem addChapterFor_mono (st : GraphBuilder) (c : Chunk) (x : String)
    (h : (st.nodes x).isSome) : ((addChapterFor st c).nodes x).isSome := by
  unfold addChapterFor
  cases c.metadata.chapter with
  | none => exact h
  | some ch =>
    dsimp only
    by_cases hch : (st.nodes (c.metadata.source_file ++ "#" ++ ch)).isSome
    · rw [if_pos hch]; exact h
    · rw [if_neg hch]; exact insertNode_isSome st.nodes _ _ x h

theorem addChapterFor_dangle (st : GraphBuilder) (c : Chunk)
    (hP : dangleFree st) (hcid : (st.nodes c.id).isSome) :
    dangleFree (addChapterFor st c) := by
  intro e he
  unfold addChapterFor at he ⊢
  cases hch0 : c.metadata.chapter with
  | none => rw [hch0] at he; exact hP e he
  | some ch =>
    rw [hch0] at he
    dsimp only at he ⊢
    by_cases hch : (st.nodes (c.metadata.source_file ++ "#" ++ ch)).isSome
    · rw [if_pos hch] at he ⊢
      rcases List.mem_append.mp he with h1 | h1
      · exact hP e h1
      · rw [List.mem_singleton.mp h1]
        exact ⟨hcid, hch⟩
    · rw [if_neg hch] at he ⊢
      rcases List.mem_append.mp he with h1 | h1
      · obtain ⟨hf, ht⟩ := hP e h1
        exact ⟨insertNode_isSome st.nodes _ _ _ hf, insertNode_isSome st.nodes _ _ _ ht⟩
      · rw [List.mem_singleton.mp h1]
        exact ⟨insertNode_isSome st.nodes _ _ _ hcid, insertNode_isSome_self st.nodes _ _⟩

theorem chapterFold_dangle : ∀ (chunks : List Chunk) (st : GraphBuilder),
    dangleFree st → (∀ c ∈ chunks, (st.nodes c.id).isSome) →
    dangleFree (chunks.foldl addChapterFor st) ∧
      (∀ x, (st.nodes x).isSome → ((chunks.foldl addChapterFor st).nodes x).isSome) := by
  intro chunks
  induction chunks with
  | nil => intro st hP _; exact ⟨hP, fun _ h => h⟩
  | cons c rest ih =>
    intro st hP hc
    have hcid := hc c (List.mem_cons_self c rest)
    have h1 := addChapterFor_dangle st c hP hcid
    obtain ⟨hA, hB⟩ := ih (addChapterFor st c)
      h1 (fun d hd => addChapterFor_mono st c d.id (hc d (List.mem_cons_of_mem c hd)))
    exact ⟨hA, fun x hx => hB x (addChapterFor_mono st c x hx)⟩

theorem addDocumentFor_mono (st : GraphBuilder) (doc : String) (g : List Chunk)
    (x : String) (h : (st.nodes x).isSome) : ((addDocumentFor st doc g).nodes x).isSome := by
  unfold addDocumentFor
  by_cases hd : (st.nodes doc).isSome
  · rw [if_pos hd]; exact h
  · rw [if_neg hd]; exact insertNode_isSome st.nodes _ _ x h

theorem addDocumentFor_dangle (st : GraphBuilder) (doc : String) (g : List Chunk)
    (hP : dangleFree st) (hg : ∀ c ∈ g, (st.nodes c.id).isSome) :
    dangleFree (addDocumentFor st doc g) := by
  intro e he
  have hdoc : ((addDocumentFor st doc g).nodes doc).isSome := by
    unfold addDocumentFor
    by_cases hd : (st.nodes doc).isSome
    · rw [if_pos hd]; exact hd
    · rw [if_neg hd]; exact insertNode_isSome_self st.nodes _ _
  have hsplit : e ∈ st.edges ++ g.map (fun c =>
      { fromId := c.id, toId := doc, edge_type := EdgeType.PartOf, weight := (1 : ℚ) }) := by
    unfold addDocumentFor at he
    by_cases hd : (st.nodes doc).isSome
    · rw [if_pos hd] at he; exact he
    · rw [if_neg hd] at he; exact he
  rcases List.mem_append.mp hsplit with h1 | h1
  · obtain ⟨hf, ht⟩ := hP e h1
    exact ⟨addDocumentFor_mono st doc g _ hf, addDocumentFor_mono st doc g _ ht⟩
  · obtain ⟨c, hcg, heq⟩ := List.mem_map.mp h1
    rw [← heq]
    exact ⟨addDocumentFor_mono st doc g c.id (hg c hcg), hdoc⟩

theorem insertGrouped_mem (R : Chunk → Prop) :
    ∀ (acc : List (String × List Chunk)) (key : String) (c : Chunk),
      (∀ p ∈ acc, ∀ d ∈ p.2, R d) → R c →
      ∀ p ∈ insertGrouped key c acc, ∀ d ∈ p.2, R d := by
  intro acc
  induction acc with
  | nil =>
    intro key c _ hc p hp d hd
    rw [List.mem_singleton.mp hp] at hd
    rw [List.mem_singleton.mp hd]
    exact hc
  | cons q rest ih =>
    intro key c hacc hc p hp d hd
    obtain ⟨k, g⟩ := q
    unfold insertGrouped at hp
    by_cases hk : k = key
    · rw [if_pos hk] at hp
      rcases List.mem_cons.mp hp with heq | hp'
      · rw [heq] at hd
        rcases List.mem_append.mp hd with h1 | h1
        · exact hacc (k, g) (List.mem_cons_self _ rest) d h1
        · rw [List.mem_singleton.mp h1]; exact hc
      · exact hacc p (List.mem_cons_of_mem _ hp') d hd
    · rw [if_neg hk] at hp
      rcases List.mem_cons.mp hp with heq | hp'
      · rw [heq] at hd
        exact hacc (k, g) (List.mem_cons_self _ rest) d hd
      · exact ih key c (fun r hr => hacc r (List.mem_cons_of_mem _ hr)) hc p hp' d hd

theorem groupBySource_mem (chunks : List Chunk) :
    ∀ p ∈ groupBySource chunks, ∀ d ∈ p.2, d ∈ chunks := by
  have aux : ∀ (l : List Chunk) (acc : List (String × List Chunk)) (R : Chunk → Prop),
      (∀ p ∈ acc, ∀ d ∈ p.2, R d) → (∀ c ∈ l, R c) →
      ∀ p ∈ l.foldl (fun acc c => insertGrouped c.metadata.source_file c acc) acc,
        ∀ d ∈ p.2, R d := by
    intro l
    induction l with
    | nil => intro acc R hacc _ p hp; exact hacc p hp
    | cons c rest ih =>
      intro acc R hacc hl p hp
      exact ih (insertGrouped c.metadata.source_file c acc) R
        (insertGrouped_mem R acc c.metadata.source_file c hacc
          (hl c (List.mem_cons_self c rest)))
        (fun d hd => hl d (List.mem_cons_of_mem c hd)) p hp
  exact aux chunks [] (· ∈ chunks) (by intro p hp; exact absurd hp (List.not_mem_nil p))
    (fun c hc => hc)

theorem docFold_dangle (chunks : List Chunk) :
    ∀ (groups : List (String × List Chunk)) (st : GraphBuilder),
      dangleFree st →
      (∀ p ∈ groups, ∀ d ∈ p.2, (st.nodes d.id).isSome) →
      dangleFree (groups.foldl (fun s p => addDocumentFor s p.1 p.2) st) := by
  intro groups
  induction groups with
  | nil => intro st hP _; exact hP
  | cons q rest ih =>
    intro st hP hg
    apply ih
    · exact addDocumentFor_dangle st q.1 q.2 hP (hg q (List.mem_cons_self q rest))
    · intro p hp d hd
      exact addDocumentFor_mono st q.1 q.2 d.id
        (hg p (List.mem_cons_of_mem q hp) d hd)

theorem build_hierarchical_dangle (st : GraphBuilder) (chunks : List Chunk)
    (hP : dangleFree st) (hc : ∀ c ∈ chunks, (st.nodes c.id).isSome) :
    dangleFree (build_hierarchical_relationships st chunks) ∧
      (∀ c ∈ chunks, ((build_hierarchical_relationships st chunks).nodes c.id).isSome) := by
  obtain ⟨hA, hB⟩ := chapterFold_dangle chunks st hP hc
  have hc1 : ∀ c ∈ chunks, ((chunks.foldl addChapterFor st).nodes c.id).isSome :=
    fun c hcm => hB c.id (hc c hcm)
  constructor
  · apply docFold_dangle chunks (groupBySource chunks) _ hA
    intro p hp d hd
    exact hc1 d (groupBySource_mem chunks p hp d hd)
  · intro c hcm
    have aux : ∀ (groups : List (String × List Chunk)) (st' : GraphBuilder) (x : String),
        (st'.nodes x).isSome →
        (((groups.foldl (fun s p => addDocumentFor s p.1 p.2) st')).nodes x).isSome := by
      intro groups
      induction groups with
      | nil => intro st' x h; exact h
      | cons q rest ih =>
        intro st' x h
        exact ih _ x (addDocumentFor_mono st' q.1 q.2 x h)
    exact aux (groupBySource chunks) _ c.id (hc1 c hcm)

theorem build_sequential_dangle (st : GraphBuilder) (chunks : List Chunk)
    (hP : dangleFree st) (hc : ∀ c ∈ chunks, (st.nodes c.id).isSome) :
    dangleFree (build_sequential_relationships st chunks) := by
  intro e he
  have hnodes : (build_sequential_relationships st chunks).nodes = st.nodes := rfl
  rw [hnodes]
  have he' : e ∈ st.edges ++
      (groupBySource chunks).flatMap (fun p => sequentialEdgesOf p.2) := he
  rcases List.mem_append.mp he' with h1 | h1
  · exact hP e h1
  · obtain ⟨p, hp, hep⟩ := List.mem_flatMap.mp h1
    unfold sequentialEdgesOf at hep
    obtain ⟨q, hq, heq⟩ := List.mem_map.mp hep
    have hsmem := List.of_mem_zip hq
    have hs1 : q.1 ∈ sortByKey (fun c => c.boundaries.1) p.2 := hsmem.1
    have hs2 : q.2 ∈ sortByKey (fun c => c.boundaries.1) p.2 :=
      List.mem_of_mem_tail hsmem.2
    have hg1 : q.1 ∈ p.2 := (sortByKey_perm _ p.2).mem_iff.mp hs1
    have hg2 : q.2 ∈ p.2 := (sortByKey_perm _ p.2).mem_iff.mp hs2
    rw [← heq]
    exact ⟨hc q.1 (groupBySource_mem chunks p hp q.1 hg1),
           hc q.2 (groupBySource_mem chunks p hp q.2 hg2)⟩

/-- C10: every `build_relationships` call preserves the no-dangling-edge
invariant — both endpoints of every edge are keys of the node map — and
therefore every sequence of `build_relationships` calls starting from
`GraphBuilder::new` leaves the graph dangle-free. -/
theorem build_relationships_dangle_free (sqrtFn : ℚ → ℚ) :
    (∀ (st : GraphBuilder) (chunks : List Chunk), dangleFree st →
      dangleFree (build_relationships sqrtFn st chunks)) ∧
    (∀ (thresh : ℚ) (batches : List (List Chunk)),
      dangleFree (batches.foldl (build_relationships sqrtFn) (new thresh))) := by
  have hstep : ∀ (st : GraphBuilder) (chunks : List Chunk), dangleFree st →
      dangleFree (build_relationships sqrtFn st chunks) := by
    intro st chunks hP
    unfold build_relationships
    have hP1 : dangleFree (chunks.foldl add_chunk_node st) := by
      intro e he
      rw [addChunkNodes_edges chunks st] at he
      obtain ⟨hf, ht⟩ := hP e he
      exact ⟨addChunkNodes_mono chunks st _ hf, addChunkNodes_mono chunks st _ ht⟩
    have hc1 : ∀ c ∈ chunks, ((chunks.foldl add_chunk_node st).nodes c.id).isSome :=
      fun c hc => addChunkNodes_self chunks st c hc
    have hP2 := build_similarity_edges_dangle sqrtFn _ chunks hP1 hc1
    have hc2 : ∀ c ∈ chunks,
        ((build_similarity_edges sqrtFn (chunks.foldl add_chunk_node st) chunks).nodes
          c.id).isSome := by
      intro c hc
      rw [build_similarity_edges_nodes]
      exact hc1 c hc
    obtain ⟨hP3, hB3⟩ := extract_word_nodes_dangle chunks _ hP2 hc2
    have hc3 : ∀ c ∈ chunks,
        ((extract_word_nodes
          (build_similarity_edges sqrtFn (chunks.foldl add_chunk_node st) chunks)
          chunks).nodes c.id).isSome :=
      fun c hc => hB3 c.id (hc2 c hc)
    obtain ⟨hP4, hc4⟩ := build_hierarchical_dangle _ chunks hP3 hc3
    exact build_sequential_dangle _ chunks hP4 hc4
  refine ⟨hstep, ?_⟩
  intro thresh batches
  have hnew : dangleFree (new thresh) := by
    intro e he
    exact absurd he (List.not_mem_nil e)
  have aux : ∀ (bs : List (List Chunk)) (st : GraphBuilder), dangleFree st →
      dangleFree (bs.foldl (build_relationships sqrtFn) st) := by
    intro bs
    induction bs with
    | nil => intro st h; exact h
    | cons b rest ih => intro st h; exact ih _ (hstep st b h)
  exact aux batches (new thresh) hnew

/-! ## C2 — what `find_related_chunks` returns

The loop only ever expands Chunk nodes (and the origin): a neighbor that is
not a Chunk node is marked visited but never enqueued, so the traversal does
not pass through Document, Chapter or Word nodes.  Reachability through
nodes of any kind (`AnyWalk`) therefore does not imply membership in the
result — a counterexample is proved below on a two-chunk graph joined only
through a shared Word node.  What holds is completeness for `ChunkWalk`
(walks whose intermediate nodes are all Chunk nodes) together with the
claimed soundness properties. -/

theorem processEdges_cons (g : GraphBuilder) (c : String) (k : Nat) (e : GraphEdge)
    (rest : List GraphEdge) (v r : List String) (ps : List (String × Nat)) :
    processEdges g c k (e :: rest) v r ps =
      match neighborOf e c with
      | none => processEdges g c k rest v r ps
      | some n =>
        if n ∈ v then processEdges g c k rest v r ps
        else
          if isChunkNode g n then
            processEdges g c k rest (n :: v) (r ++ [n]) (ps ++ [(n, k + 1)])
          else processEdges g c k rest (n :: v) r ps := rfl

/-- One scan of the edge list from `c` adds some duplicate-free block `fresh`
of previously unvisited neighbors of `c` (in reverse order) to the visited
list, covers every neighbor of `c`, appends the Chunk-node members of
`fresh` to the result list and enqueues exactly them at depth `k + 1`. -/
theorem processEdges_spec (g : GraphBuilder) (c : String) (k : Nat) :
    ∀ (es : List GraphEdge) (v r : List String) (ps : List (String × Nat)),
    ∃ fresh : List String,
      (processEdges g c k es v r ps).1 = fresh.reverse ++ v ∧
      fresh.Nodup ∧
      (∀ y ∈ fresh, y ∉ v) ∧
      (∀ y ∈ fresh, ∃ e ∈ es, neighborOf e c = some y) ∧
      (∀ y : String, (∃ e ∈ es, neighborOf e c = some y) → y ∈ v ∨ y ∈ fresh) ∧
      (processEdges g c k es v r ps).2.1 = r ++ fresh.filter (fun y => isChunkNode g y) ∧
      (processEdges g c k es v r ps).2.2
        = ps ++ (fresh.filter (fun y => isChunkNode g y)).map (fun y => (y, k + 1)) := by
  intro es
  induction es with
  | nil =>
    intro v r ps
    exact ⟨[], by simp [processEdges], by simp, by simp, by simp,
      by rintro y ⟨e, he, -⟩; exact absurd he (List.not_mem_nil e),
      by simp [processEdges], by simp [processEdges]⟩
  | cons e rest ih =>
    intro v r ps
    rcases hnb : neighborOf e c with _ | n
    · obtain ⟨fresh, h1, h2, h3, h4, h5, h6, h7⟩ := ih v r ps
      refine ⟨fresh, ?_, h2, h3, ?_, ?_, ?_, ?_⟩
      · rw [processEdges_cons, hnb]; exact h1
      · exact fun y hy => by obtain ⟨e', he', hn⟩ := h4 y hy; exact ⟨e', by simp [he'], hn⟩
      · rintro y ⟨e', he', hn⟩
        rcases List.mem_cons.mp he' with heq | hmem
        · subst heq; rw [hnb] at hn; exact absurd hn (by simp)
        · exact h5 y ⟨e', hmem, hn⟩
      · rw [processEdges_cons, hnb]; exact h6
      · rw [processEdges_cons, hnb]; exact h7
    · by_cases hv : n ∈ v
      · obtain ⟨fresh, h1, h2, h3, h4, h5, h6, h7⟩ := ih v r ps
        refine ⟨fresh, ?_, h2, h3, ?_, ?_, ?_, ?_⟩
        · rw [processEdges_cons, hnb]; simpa [hv] using h1
        · exact fun y hy => by obtain ⟨e', he', hn⟩ := h4 y hy; exact ⟨e', by simp [he'], hn⟩
        · rintro y ⟨e', he', hn⟩
          rcases List.mem_cons.mp he' with heq | hmem
          · subst heq; rw [hnb] at hn
            exact Or.inl (by injection hn with hn; exact hn ▸ hv)
          · exact h5 y ⟨e', hmem, hn⟩
        · rw [processEdges_cons, hnb]; simpa [hv] using h6
        · rw [processEdges_cons, hnb]; simpa [hv] using h7
      · by_cases hc : isChunkNode g n
        · obtain ⟨fresh, h1, h2, h3, h4, h5, h6, h7⟩ := ih (n :: v) (r ++ [n]) (ps ++ [(n, k + 1)])
          refine ⟨n :: fresh, ?_, ?_, ?_, ?_, ?_, ?_, ?_⟩
          · simp only [processEdges_cons, hnb]
            rw [if_neg hv, if_pos hc, h1]
            simp
          · exact List.nodup_cons.mpr
              ⟨fun hm => (h3 n hm) (List.mem_cons_self n v), h2⟩
          · intro y hy
            rcases List.mem_cons.mp hy with heq | hmem
            · exact heq ▸ hv
            · exact fun hyv => (h3 y hmem) (List.mem_cons_of_mem n hyv)
          · intro y hy
            rcases List.mem_cons.mp hy with heq | hmem
            · exact ⟨e, List.mem_cons_self e rest, heq ▸ hnb⟩
            · obtain ⟨e', he', hn⟩ := h4 y hmem
              exact ⟨e', List.mem_cons_of_mem e he', hn⟩
          · rintro y ⟨e', he', hn⟩
            rcases List.mem_cons.mp he' with heq | hmem
            · subst heq; rw [hnb] at hn; injection hn with hn
              exact Or.inr (hn ▸ List.mem_cons_self n fresh)
            · rcases h5 y ⟨e', hmem, hn⟩ with hin | hfr
              · rcases List.mem_cons.mp hin with heq | hmem'
                · exact Or.inr (heq ▸ List.mem_cons_self n fresh)
                · exact Or.inl hmem'
              · exact Or.inr (List.mem_cons_of_mem n hfr)
          · simp only [processEdges_cons, hnb]
            rw [if_neg hv, if_pos hc, h6]
            simp [List.filter_cons, hc]
          · simp only [processEdges_cons, hnb]
            rw [if_neg hv, if_pos hc, h7]
            simp [List.filter_cons, hc]
        · obtain ⟨fresh, h1, h2, h3, h4, h5, h6, h7⟩ := ih (n :: v) r ps
          refine ⟨n :: fresh, ?_, ?_, ?_, ?_, ?_, ?_, ?_⟩
          · simp only [processEdges_cons, hnb]
            rw [if_neg hv, if_neg hc, h1]
            simp
          · exact List.nodup_cons.mpr
              ⟨fun hm => (h3 n hm) (List.mem_cons_self n v), h2⟩
          · intro y hy
            rcases List.mem_cons.mp hy with heq | hmem
            · exact heq ▸ hv
            · exact fun hyv => (h3 y hmem) (List.mem_cons_of_mem n hyv)
          · intro y hy
            rcases List.mem_cons.mp hy with heq | hmem
            · exact ⟨e, List.mem_cons_self e rest, heq ▸ hnb⟩
            · obtain ⟨e', he', hn⟩ := h4 y hmem
              exact ⟨e', List.mem_cons_of_mem e he', hn⟩
          · rintro y ⟨e', he', hn⟩
            rcases List.mem_cons.mp he' with heq | hmem
            · subst heq; rw [hnb] at hn; injection hn with hn
              exact Or.inr (hn ▸ List.mem_cons_self n fresh)
            · rcases h5 y ⟨e', hmem, hn⟩ with hin | hfr
              · rcases List.mem_cons.mp hin with heq | hmem'
                · exact Or.inr (heq ▸ List.mem_cons_self n fresh)
                · exact Or.inl hmem'
              · exact Or.inr (List.mem_cons_of_mem n hfr)
          · simp only [processEdges_cons, hnb]
            rw [if_neg hv, if_neg hc, h6]
            simp [List.filter_cons, hc]
          · simp only [processEdges_cons, hnb]
            rw [if_neg hv, if_neg hc, h7]
            simp [List.filter_cons, hc]

/-- Skipping a queue entry whose depth has reached the bound preserves the
loop invariant: its `d ≤ δ` disjunct covers the dropped entry. -/
theorem bfsInv_skip (g : GraphBuilder) (o : String) (d : Nat) (δ : String → Nat)
    (v : List String) (c : String) (k : Nat) (rest : List (String × Nat))
    (r : List String) (hI : BfsInv g o d δ v ((c, k) :: rest) r) (hk : d ≤ k) :
    BfsInv g o d δ v rest r := by
  obtain ⟨i1, i2, i3, i4, i5, i6, i7, i8, i9, i10⟩ := hI
  have hrestk : ∀ q ∈ rest, k ≤ q.2 := fun q hq => (List.pairwise_cons.mp i4).1 q hq
  refine ⟨i1, i2, ?_, (List.pairwise_cons.mp i4).2, ?_, ?_, ?_, i8, i9, i10⟩
  · exact fun p hp => i3 p (List.mem_cons_of_mem _ hp)
  · intro h hh p hp
    have h2 : k ≤ h.2 := hrestk h (List.mem_of_mem_head? hh)
    have h1 : p.2 ≤ k + 1 := i5 (c, k) rfl p (List.mem_cons_of_mem _ hp)
    omega
  · intro h hh x hx
    have h2 : k ≤ h.2 := hrestk h (List.mem_of_mem_head? hh)
    have h1 : δ x ≤ k + 1 := i6 (c, k) rfl x hx
    omega
  · intro x hx hco
    rcases i7 x hx hco with ⟨p, hp, hpx⟩ | hcl | hd
    · rcases List.mem_cons.mp hp with heq | hm
      · refine Or.inr (Or.inr ?_)
        have h3 : δ c = k := (i3 (c, k) (List.mem_cons_self _ _)).2.1
        have hx3 : x = c := by rw [← hpx, heq]
        rw [hx3, h3]
        exact hk
      · exact Or.inl ⟨p, hm, hpx⟩
    · exact Or.inr (Or.inl hcl)
    · exact Or.inr (Or.inr hd)

theorem pairwise_const_map (k : Nat) (l : List String) :
    List.Pairwise (fun p q : String × Nat => p.2 ≤ q.2) (l.map (fun y => (y, k))) := by
  induction l with
  | nil => simp
  | cons a t ih =>
    simp only [List.map_cons, List.pairwise_cons]
    refine ⟨?_, ih⟩
    intro q hq
    obtain ⟨y, hy, heq⟩ := List.mem_map.mp hq
    rw [← heq]

/-- Expanding the queue head `(c, k)` with `k` below the bound preserves the
loop invariant, for the ghost depth map that sends the fresh nodes to
`k + 1` and is unchanged on the already visited ones. -/
theorem bfsInv_expand (g : GraphBuilder) (o : String) (d : Nat) (δ : String → Nat)
    (v : List String) (c : String) (k : Nat) (rest : List (String × Nat))
    (r : List String) (hI : BfsInv g o d δ v ((c, k) :: rest) r) (hk : k < d) :
    ∃ δ' : String → Nat,
      BfsInv g o d δ' (processEdges g c k g.edges v r []).1
        (rest ++ (processEdges g c k g.edges v r []).2.2)
        (processEdges g c k g.edges v r []).2.1 := by
  obtain ⟨i1, i2, i3, i4, i5, i6, i7, i8, i9, i10⟩ := hI
  obtain ⟨fresh, s1, s2, s3, s4, s5, s6, s7⟩ := processEdges_spec g c k g.edges v r []
  have hcv : c ∈ v := (i3 (c, k) (List.mem_cons_self _ _)).1
  have hδc : δ c = k := (i3 (c, k) (List.mem_cons_self _ _)).2.1
  have hrestk : ∀ q ∈ rest, k ≤ q.2 := fun q hq => (List.pairwise_cons.mp i4).1 q hq
  have hrestk1 : ∀ q ∈ rest, q.2 ≤ k + 1 :=
    fun q hq => i5 (c, k) rfl q (List.mem_cons_of_mem _ hq)
  have hvk1 : ∀ x ∈ v, δ x ≤ k + 1 := fun x hx => i6 (c, k) rfl x hx
  have s7' : (processEdges g c k g.edges v r []).2.2
      = (fresh.filter (fun y => isChunkNode g y)).map (fun y => (y, k + 1)) := by
    rw [s7]; simp
  have hv' : ∀ y : String,
      (y ∈ (processEdges g c k g.edges v r []).1 ↔ y ∈ fresh ∨ y ∈ v) := by
    intro y; rw [s1]; simp
  have hpush : ∀ p ∈ (processEdges g c k g.edges v r []).2.2,
      p.1 ∈ fresh ∧ isChunkNode g p.1 = true ∧ p.2 = k + 1 := by
    intro p hp
    rw [s7'] at hp
    obtain ⟨y, hy, heq⟩ := List.mem_map.mp hp
    have hm := List.mem_filter.mp hy
    refine ⟨by rw [← heq]; exact hm.1, by rw [← heq]; exact hm.2, by rw [← heq]⟩
  refine ⟨fun x => if x ∈ v then δ x else k + 1, ?_⟩
  have hδv : ∀ x ∈ v, (fun x => if x ∈ v then δ x else k + 1) x = δ x :=
    fun x hx => if_pos hx
  have hδf : ∀ x ∈ fresh, (fun x => if x ∈ v then δ x else k + 1) x = k + 1 :=
    fun x hx => if_neg (s3 x hx)
  have hheadk : ∀ h ∈ (rest ++ (processEdges g c k g.edges v r []).2.2).head?, k ≤ h.2 := by
    intro h hh
    cases rest with
    | nil =>
      have hmem : h ∈ (processEdges g c k g.edges v r []).2.2 :=
        List.mem_of_mem_head? (by simpa using hh)
      have := (hpush h hmem).2.2; omega
    | cons q rest' =>
      have heq : q = h := by simpa using hh
      rw [← heq]; exact hrestk q (List.mem_cons_self _ _)
  refine ⟨(hv' o).mpr (Or.inr i1), (hδv o i1).trans i2, ?_, ?_, ?_, ?_, ?_, ?_, ?_, ?_⟩
  · intro p hp
    rcases List.mem_append.mp hp with hr | hps
    · obtain ⟨hpv, hpδ, hpc⟩ := i3 p (List.mem_cons_of_mem _ hr)
      exact ⟨(hv' p.1).mpr (Or.inr hpv), (hδv p.1 hpv).trans hpδ, hpc⟩
    · obtain ⟨hyf, hyc, hp2⟩ := hpush p hps
      exact ⟨(hv' p.1).mpr (Or.inl hyf), (hδf p.1 hyf).trans hp2.symm, Or.inl hyc⟩
  · rw [s7']
    refine List.pairwise_append.mpr ⟨(List.pairwise_cons.mp i4).2, ?_, ?_⟩
    · exact pairwise_const_map (k + 1) _
    · intro p hp q hq
      obtain ⟨y, hy, heq⟩ := List.mem_map.mp hq
      have : q.2 = k + 1 := by rw [← heq]
      rw [this]
      exact hrestk1 p hp
  · intro h hh p hp
    have hh2 : k ≤ h.2 := hheadk h hh
    rcases List.mem_append.mp hp with hr | hps
    · have := hrestk1 p hr; omega
    · have := (hpush p hps).2.2; omega
  · intro h hh x hx
    have hh2 : k ≤ h.2 := hheadk h hh
    rcases (hv' x).mp hx with hf | hvv
    · rw [hδf x hf]; omega
    · rw [hδv x hvv]; have := hvk1 x hvv; omega
  · intro x hx hco
    rcases (hv' x).mp hx with hf | hvv
    · have hxo : x ≠ o := fun he => (s3 x hf) (he ▸ i1)
      have hxc : isChunkNode g x = true := hco.resolve_right hxo
      refine Or.inl ⟨(x, k + 1), ?_, rfl⟩
      refine List.mem_append.mpr (Or.inr ?_)
      rw [s7']
      exact List.mem_map.mpr ⟨x, List.mem_filter.mpr ⟨hf, hxc⟩, rfl⟩
    · by_cases hxc2 : x = c
      · refine Or.inr (Or.inl ?_)
        intro y hy
        rw [hxc2] at hy
        rcases s5 y hy with hyv | hyf
        · refine ⟨(hv' y).mpr (Or.inr hyv), ?_⟩
          rw [hδv y hyv, hδv x hvv, hxc2, hδc]
          exact hvk1 y hyv
        · refine ⟨(hv' y).mpr (Or.inl hyf), ?_⟩
          rw [hδf y hyf, hδv x hvv, hxc2, hδc]
      · rcases i7 x hvv hco with ⟨p, hp, hpx⟩ | hcl | hd
        · rcases List.mem_cons.mp hp with heq | hm
          · exact absurd (by rw [← hpx, heq]) hxc2
          · exact Or.inl ⟨p, List.mem_append.mpr (Or.inl hm), hpx⟩
        · refine Or.inr (Or.inl ?_)
          intro y hy
          obtain ⟨hyv, hyd⟩ := hcl y hy
          exact ⟨(hv' y).mpr (Or.inr hyv), by rw [hδv y hyv, hδv x hvv]; exact hyd⟩
        · exact Or.inr (Or.inr (by rw [hδv x hvv]; exact hd))
  · intro x hx hc2 hxo
    rw [s6]
    rcases (hv' x).mp hx with hf | hvv
    · exact List.mem_append.mpr (Or.inr (List.mem_filter.mpr ⟨hf, hc2⟩))
    · exact List.mem_append.mpr (Or.inl (i8 x hvv hc2 hxo))
  · intro x hx
    rw [s6] at hx
    rcases List.mem_append.mp hx with hr | hf
    · obtain ⟨hxv, hxc, hxo⟩ := i9 x hr
      exact ⟨(hv' x).mpr (Or.inr hxv), hxc, hxo⟩
    · have hm := List.mem_filter.mp hf
      exact ⟨(hv' x).mpr (Or.inl hm.1), hm.2, fun he => (s3 x hm.1) (he ▸ i1)⟩
  · rw [s6]
    refine List.Nodup.append i10 (s2.filter _) ?_
    intro a har haf
    exact (s3 a (List.mem_filter.mp haf).1) ((i9 a har).1)

/-- With fuel at least twice the number of unvisited edge endpoints plus the
queue length, the worklist loop runs to an empty queue while preserving the
invariant. -/
theorem bfsLoop_post (g : GraphBuilder) (o : String) (d : Nat) :
    ∀ (fuel : Nat) (v : List String) (q : List (String × Nat)) (r : List String)
      (δ : String → Nat),
      BfsInv g o d δ v q r →
      2 * ((endpointIds g).toFinset \ v.toFinset).card + q.length ≤ fuel →
      ∃ δ' : String → Nat,
        BfsInv g o d δ' (bfsLoop g d fuel v q r).1 [] (bfsLoop g d fuel v q r).2 := by
  intro fuel
  induction fuel with
  | zero =>
    intro v q r δ hI hm
    have hq : q = [] := List.eq_nil_of_length_eq_zero (by omega)
    subst hq
    exact ⟨δ, hI⟩
  | succ fuel ih =>
    intro v q r δ hI hm
    match q with
    | [] => exact ⟨δ, hI⟩
    | (c, k) :: rest =>
      by_cases hk : d ≤ k
      · have hI' := bfsInv_skip g o d δ v c k rest r hI hk
        have hm' : 2 * ((endpointIds g).toFinset \ v.toFinset).card + rest.length ≤ fuel := by
          simp only [List.length_cons] at hm; omega
        have hrec := ih v rest r δ hI' hm'
        simpa [bfsLoop, hk] using hrec
      · push_neg at hk
        obtain ⟨δ1, hI1⟩ := bfsInv_expand g o d δ v c k rest r hI hk
        obtain ⟨fresh, s1, s2, s3, s4, s5, s6, s7⟩ := processEdges_spec g c k g.edges v r []
        have hfe : ∀ y ∈ fresh, y ∈ endpointIds g := by
          intro y hy
          obtain ⟨e, he, hne⟩ := s4 y hy
          unfold neighborOf at hne
          by_cases h1 : e.fromId = c
          · rw [if_pos h1] at hne; injection hne with hne
            exact List.mem_flatMap.mpr ⟨e, he, by rw [← hne]; simp⟩
          · rw [if_neg h1] at hne
            by_cases h2 : e.toId = c
            · rw [if_pos h2] at hne; injection hne with hne
              exact List.mem_flatMap.mpr ⟨e, he, by rw [← hne]; simp⟩
            · rw [if_neg h2] at hne; exact absurd hne (by simp)
        have hsub : fresh.toFinset ⊆ (endpointIds g).toFinset \ v.toFinset := by
          intro y hy
          rw [List.mem_toFinset] at hy
          rw [Finset.mem_sdiff, List.mem_toFinset, List.mem_toFinset]
          exact ⟨hfe y hy, s3 y hy⟩
        have hcardf : fresh.toFinset.card = fresh.length := List.toFinset_card_of_nodup s2
        have hv1 : (processEdges g c k g.edges v r []).1.toFinset
            = fresh.toFinset ∪ v.toFinset := by
          rw [s1]; simp
        have hsd : (endpointIds g).toFinset \ (processEdges g c k g.edges v r []).1.toFinset
            = ((endpointIds g).toFinset \ v.toFinset) \ fresh.toFinset := by
          rw [hv1]; ext a; simp only [Finset.mem_sdiff, Finset.mem_union]; tauto
        have hcard : ((endpointIds g).toFinset
              \ (processEdges g c k g.edges v r []).1.toFinset).card
            = ((endpointIds g).toFinset \ v.toFinset).card - fresh.length := by
          rw [hsd, Finset.card_sdiff hsub, hcardf]
        have hflen : fresh.length ≤ ((endpointIds g).toFinset \ v.toFinset).card := by
          rw [← hcardf]; exact Finset.card_le_card hsub
        have hqlen : (rest ++ (processEdges g c k g.edges v r []).2.2).length
            ≤ rest.length + fresh.length := by
          rw [List.length_append, s7]
          simp only [List.nil_append, List.length_map]
          have := List.length_filter_le (fun y => isChunkNode g y) fresh
          omega
        have hm' : 2 * ((endpointIds g).toFinset
              \ (processEdges g c k g.edges v r []).1.toFinset).card
            + (rest ++ (processEdges g c k g.edges v r []).2.2).length ≤ fuel := by
          rw [hcard]
          simp only [List.length_cons] at hm
          omega
        have hrec := ih (processEdges g c k g.edges v r []).1
          (rest ++ (processEdges g c k g.edges v r []).2.2)
          (processEdges g c k g.edges v r []).2.1 δ1 hI1 hm'
        simpa [bfsLoop, not_le.mpr hk] using hrec

theorem chunkWalk_last (g : GraphBuilder) (o x : String) (n : Nat)
    (h : ChunkWalk g o x n) : x = o ∨ isChunkNode g x = true := by
  cases h with
  | refl => exact Or.inl rfl
  | step _ _ hc => exact Or.inr hc

/-- C2, amended: the breadth-first traversal only passes through Chunk
nodes, so `find_related_chunks(origin, d)` contains every Chunk node
distinct from the origin that is reachable from the origin within `d`
undirected hops through Chunk nodes only (not through nodes of any kind);
every returned id is a Chunk node distinct from the origin, and no id is
returned twice. -/
theorem find_related_chunks_spec (g : GraphBuilder) (o : String) (d : Nat) :
    (∀ (C : String) (n : Nat), ChunkWalk g o C n → n ≤ d → C ≠ o →
      C ∈ find_related_chunks g o d) ∧
    (∀ x ∈ find_related_chunks g o d, isChunkNode g x = true ∧ x ≠ o) ∧
    (find_related_chunks g o d).Nodup := by
  have hinit : BfsInv g o d (fun _ => 0) [o] [(o, 0)] [] := by
    refine ⟨List.mem_cons_self o [], rfl, ?_, ?_, ?_, ?_, ?_, ?_, ?_, List.nodup_nil⟩
    · intro p hp
      have hp' : p = (o, 0) := List.mem_singleton.mp hp
      subst hp'
      exact ⟨List.mem_cons_self o [], rfl, Or.inr rfl⟩
    · simp
    · intro h hh p hp
      have hp' : p = (o, 0) := List.mem_singleton.mp hp
      subst hp'
      exact Nat.zero_le _
    · intro h hh x hx
      exact Nat.zero_le _
    · intro x hx hco
      have hx' : x = o := List.mem_singleton.mp hx
      exact Or.inl ⟨(o, 0), List.mem_cons_self _ [], hx'.symm⟩
    · intro x hx hc hxo
      exact absurd (List.mem_singleton.mp hx) hxo
    · intro x hx
      exact absurd hx (List.not_mem_nil x)
  have hfuel : 2 * ((endpointIds g).toFinset \ ([o] : List String).toFinset).card
      + [((o : String), (0 : Nat))].length ≤ 2 * (endpointIds g).length + 2 := by
    have h1 : ((endpointIds g).toFinset \ ([o] : List String).toFinset).card
        ≤ (endpointIds g).toFinset.card := Finset.card_le_card Finset.sdiff_subset
    have h2 : (endpointIds g).toFinset.card ≤ (endpointIds g).length :=
      (endpointIds g).toFinset_card_le
    simp only [List.length_cons, List.length_nil]
    omega
  obtain ⟨δ', hfin⟩ := bfsLoop_post g o d (2 * (endpointIds g).length + 2) [o] [(o, 0)] []
    (fun _ => 0) hinit hfuel
  obtain ⟨j1, j2, j3, j4, j5, j6, j7, j8, j9, j10⟩ := hfin
  refine ⟨?_, ?_, j10⟩
  · have hreach : ∀ (C : String) (n : Nat), ChunkWalk g o C n → n ≤ d →
        C ∈ (bfsLoop g d (2 * (endpointIds g).length + 2) [o] [(o, 0)] []).1 ∧
          δ' C ≤ n := by
      intro C n hw
      induction hw with
      | refl => intro hn; exact ⟨j1, le_of_eq j2⟩
      | @step x y n hw' hadj hchunk ih =>
        intro hn1
        obtain ⟨hxv, hxd⟩ := ih (by omega)
        have hco : isChunkNode g x = true ∨ x = o := by
          rcases chunkWalk_last g o x n hw' with h | h
          · exact Or.inr h
          · exact Or.inl h
        rcases j7 x hxv hco with ⟨p, hp, _⟩ | hcl | hd2
        · exact absurd hp (List.not_mem_nil p)
        · obtain ⟨hyv, hyd⟩ := hcl y hadj
          exact ⟨hyv, by omega⟩
        · exact absurd hn1 (by omega)
    intro C n hw hn hCo
    obtain ⟨hCv, _⟩ := hreach C n hw hn
    have hCc : isChunkNode g C = true := by
      rcases chunkWalk_last g o C n hw with h | h
      · exact absurd h hCo
      · exact h
    exact j8 C hCv hCc hCo
  · intro x hx
    exact ⟨(j9 x hx).2.1, (j9 x hx).2.2⟩

/-- Witness for C2: on the graph built from two chunks of one source file,
the second chunk is one Sequential hop from the first and is returned by
`find_related_chunks` at depth 1. -/
theorem find_related_chunks_spec_witness :
    "c1" ∈ find_related_chunks
      (build_relationships (fun _ => 0) (new 2)
        [⟨"c0", "alpha beta", [], ⟨"f", ChunkType.Text, none, none, [], 0⟩, (0, 1)⟩,
         ⟨"c1", "alpha gamma", [], ⟨"f", ChunkType.Text, none, none, [], 0⟩, (1, 2)⟩])
      "c0" 1 :=
  (find_related_chunks_spec
      (build_relationships (fun _ => 0) (new 2)
        [⟨"c0", "alpha beta", [], ⟨"f", ChunkType.Text, none, none, [], 0⟩, (0, 1)⟩,
         ⟨"c1", "alpha gamma", [], ⟨"f", ChunkType.Text, none, none, [], 0⟩, (1, 2)⟩])
      "c0" 1).1 "c1" 1
    (ChunkWalk.step ChunkWalk.refl
      ⟨{ fromId := "c0", toId := "c1", edge_type := EdgeType.Sequential, weight := 1 },
       by with_unfolding_all decide, by decide⟩
      (by with_unfolding_all decide))
    (by decide) (by decide)

/-- Counterexample to the claimed completeness for reachability through
nodes of any kind: two chunks in distinct source files sharing the word
"alpha" are joined through the Word node "alpha" in two undirected hops,
yet the traversal from "A" at depth 2 returns nothing — a Word node is
marked visited but never expanded. -/
theorem find_related_chunks_counterexample :
    AnyWalk
        (build_relationships (fun _ => 0) (new (9 / 10))
          [⟨"A", "alpha beta", [], ⟨"f1", ChunkType.Text, none, none, [], 0⟩, (0, 1)⟩,
           ⟨"B", "alpha gamma", [], ⟨"f2", ChunkType.Text, none, none, [], 0⟩, (0, 1)⟩])
        "A" "B" 2 ∧
      isChunkNode
        (build_relationships (fun _ => 0) (new (9 / 10))
          [⟨"A", "alpha beta", [], ⟨"f1", ChunkType.Text, none, none, [], 0⟩, (0, 1)⟩,
           ⟨"B", "alpha gamma", [], ⟨"f2", ChunkType.Text, none, none, [], 0⟩, (0, 1)⟩])
        "B" = true ∧
      "B" ≠ "A" ∧
      "B" ∉ find_related_chunks
        (build_relationships (fun _ => 0) (new (9 / 10))
          [⟨"A", "alpha beta", [], ⟨"f1", ChunkType.Text, none, none, [], 0⟩, (0, 1)⟩,
           ⟨"B", "alpha gamma", [], ⟨"f2", ChunkType.Text, none, none, [], 0⟩, (0, 1)⟩])
        "A" 2 := by
  refine ⟨?_, by with_unfolding_all decide, by decide, by with_unfolding_all decide⟩
  exact AnyWalk.step
    (AnyWalk.step (y := "alpha") AnyWalk.refl
      ⟨{ fromId := "A", toId := "alpha", edge_type := EdgeType.Contains, weight := 1 },
       by with_unfolding_all decide, by decide⟩)
    ⟨{ fromId := "B", toId := "alpha", edge_type := EdgeType.Contains, weight := 1 },
     by with_unfolding_all decide, by decide⟩

/-- Witness for C10: one `build_relationships` call on the empty graph with
a one-chunk batch carrying a chapter. -/
theorem build_relationships_dangle_free_witness :
    dangleFree (build_relationships (fun _ => 0) (new 0)
      [⟨"c0", "alpha beta", [], ⟨"f", ChunkType.Text, some "ch", none, [], 0⟩, (0, 1)⟩]) :=
  (build_relationships_dangle_free (fun _ => 0)).1 (new 0)
    [⟨"c0", "alpha beta", [], ⟨"f", ChunkType.Text, some "ch", none, [], 0⟩, (0, 1)⟩]
    (fun e he => absurd he (List.not_mem_nil e))

end GraphBuilder

end AlanRag
